import Mathlib

/-!
# OSCPixelSender — verification of the spec against the source

Shallow embedding of the core of the OSCPixelSender repository:

* `src/mq.rs` — the hand-off message queue (`MessageQueueSender`):
  the queue content is modelled as a `List` whose head is the front
  (oldest element) and whose last element is the back, matching the
  `VecDeque` used in the source.  The only failure mode of the Rust
  operations is mutex poisoning, which is outside a sequential model,
  so the operations are modelled as pure functions on the queue state.
* `src/main.rs` — the `BgMessage` enum and its `is_update` predicate.
* `src/send_osc.rs` — `pack_bytes_clone`, `rle_encode`, the synchronous
  setup phase of `send_osc`, and the spawned transmission body.

Machine integers (`u8`, `u32`, `usize`) are modelled as `Nat`; wherever a
Rust operation can wrap or fail (`checked_add` on the `u8` run counter) the
model tests the bound `255` explicitly.  Rust panics (`assert!`, `expect`,
`panic!`, and the implicit panic of `chunks_exact(0)`) are modelled by
returning `none` from an `Option`-valued function.
-/

namespace OSCPixelSender

/-! ## Message queue (`src/mq.rs`)

`MessageQueueSender::send`, `send_or_replace`, `send_or_replace_if` on the
`VecDeque<T>` behind the mutex.  `push_back` appends at the back (the end of
the list), `back_mut` is the last element. -/

/-- `MessageQueueSender::send`: unconditionally `push_back`. -/
def mqSend (q : List α) (val : α) : List α := q ++ [val]

/-- `MessageQueueSender::send_or_replace`: overwrite the back element in
place when the queue is non-empty, else `push_back`. -/
def mqSendOrReplace (q : List α) (val : α) : List α :=
  match q.getLast? with
  | some _ => q.dropLast ++ [val]
  | none => q ++ [val]

/-- `MessageQueueSender::send_or_replace_if`: overwrite the back element in
place when the queue is non-empty and `pred` holds of it, else `push_back`. -/
def mqSendOrReplaceIf (pred : α → Bool) (q : List α) (val : α) : List α :=
  match q.getLast? with
  | some x => if pred x then q.dropLast ++ [val] else q ++ [val]
  | none => q ++ [val]

/-! ## `BgMessage` (`src/main.rs`)

The message enum sent from the UI thread to the background worker.  The
payloads (`PathBuf`, the `UpdateImage` option fields, `SendOSCOpts`) are not
inspected by any queue operation, so they are carried as type parameters. -/

/-- The `BgMessage` enum of `src/main.rs` (payload types abstracted). -/
inductive BgMessage (P U S : Type) where
  | loadImage (path : P)
  | saveImage (path : P)
  | updateImage (opts : U)
  | clearImage
  | sendOSC (opts : S)
  | quit
deriving DecidableEq, Repr

/-- `BgMessage::is_update` (`src/main.rs` line 80). -/
def BgMessage.is_update : BgMessage P U S → Bool
  | .updateImage _ => true
  | _ => false

/-- A "structurally different" message in the sense of the spec (§4.1):
`LoadImage`, `ClearImage` or `Quit`. -/
def BgMessage.isStructural : BgMessage P U S → Bool
  | .loadImage _ => true
  | .clearImage => true
  | .quit => true
  | _ => false

/-! ## Bit packing (`pack_bytes_clone`, `src/send_osc.rs` lines 190-235) -/

/-- Rust `slice::chunks_exact(k)`: consecutive chunks of exactly `k`
elements, any shorter remainder dropped.  (`chunks_exact(0)` panics in
Rust; the `k = 0` case here is dead and returns `[]` — the caller
`pack_bytes_clone` maps `width = 0` to `none` before reaching it.) -/
def chunksExact (k : Nat) (l : List α) : List (List α) :=
  if _h : 0 < k ∧ k ≤ l.length then
    l.take k :: chunksExact k (l.drop k)
  else []
termination_by l.length
decreasing_by
  simp only [List.length_drop]
  omega

/-- Rust `slice::chunks(k)`: consecutive chunks of at most `k` elements,
the final chunk possibly shorter.  (`chunks(0)` panics in Rust; the code
only calls it with the constants 8, 4, 2, 24 and 7.) -/
def chunksOf (k : Nat) (l : List α) : List (List α) :=
  if _h : 0 < k ∧ 0 < l.length then
    l.take k :: chunksOf k (l.drop k)
  else []
termination_by l.length
decreasing_by
  simp only [List.length_drop]
  omega

/-- One `p.get(i).map_or(0, |v| (v & mask) << shift)` term of the packing
expressions in `pack_bytes_clone`. -/
def packField (p : List Nat) (i mask shift : Nat) : Nat :=
  match p[i]? with
  | none => 0
  | some v => (v &&& mask) <<< shift

/-- The 1-bpp packing of one group of up to 8 indices (MSB first). -/
def packByte1 (p : List Nat) : Nat :=
  packField p 0 1 7 ||| packField p 1 1 6 ||| packField p 2 1 5 |||
  packField p 3 1 4 ||| packField p 4 1 3 ||| packField p 5 1 2 |||
  packField p 6 1 1 ||| packField p 7 1 0

/-- The 2-bpp packing of one group of up to 4 indices (MSB first). -/
def packByte2 (p : List Nat) : Nat :=
  packField p 0 3 6 ||| packField p 1 3 4 ||| packField p 2 3 2 ||| packField p 3 3 0

/-- The 4-bpp packing of one group of up to 2 indices (MSB first). -/
def packByte4 (p : List Nat) : Nat :=
  packField p 0 15 4 ||| packField p 1 15 0

/-- `pack_bytes_clone` (`src/send_osc.rs` lines 190-235): per line of
`width` indices, pack groups of `8/bitdepth` indices MSB-first into one
byte each; 8 bpp is a plain copy.  `none` models the two panics: the
`chunks_exact(0)` panic when `width = 0` (for depths 1, 2, 4) and the
explicit `panic!` for an unsupported bit depth. -/
def pack_bytes_clone (indexes : List Nat) (width : Nat) (bitdepth : Nat) :
    Option (List Nat) :=
  match bitdepth with
  | 1 => if width = 0 then none else
      some ((chunksExact width indexes).flatMap fun line =>
        (chunksOf 8 line).map packByte1)
  | 2 => if width = 0 then none else
      some ((chunksExact width indexes).flatMap fun line =>
        (chunksOf 4 line).map packByte2)
  | 4 => if width = 0 then none else
      some ((chunksExact width indexes).flatMap fun line =>
        (chunksOf 2 line).map packByte4)
  | 8 => some indexes
  | _ => none

/-- Modelled from the spec: `unpack` is not part of this repository (the
receiving shader decodes the stream); spec §4.2 defines it as the exact
inverse of `pack`.  This splits one byte MSB-first into `8/bitdepth`
fields of `bitdepth` bits each. -/
def unpackFields (bitdepth b : Nat) : List Nat :=
  match bitdepth with
  | 1 => [b >>> 7 &&& 1, b >>> 6 &&& 1, b >>> 5 &&& 1, b >>> 4 &&& 1,
          b >>> 3 &&& 1, b >>> 2 &&& 1, b >>> 1 &&& 1, b &&& 1]
  | 2 => [b >>> 6 &&& 3, b >>> 4 &&& 3, b >>> 2 &&& 3, b &&& 3]
  | 4 => [b >>> 4 &&& 15, b &&& 15]
  | _ => [b]

/-- Modelled from the spec (§4.2, §8): `unpack` splits the byte stream
into rows of `ceil(width * bitdepth / 8)` bytes, splits each row's bytes
MSB-first into `8/bitdepth`-bit fields, and keeps the first `width`
fields of each row, discarding the zero padding.  Not defined (`none`)
for bit depths other than 1, 2, 4, 8 ("a setup error upstream"). -/
def unpack_bytes (bytes : List Nat) (width bitdepth : Nat) : Option (List Nat) :=
  if width = 0 then none
  else if bitdepth = 1 ∨ bitdepth = 2 ∨ bitdepth = 4 ∨ bitdepth = 8 then
    some ((chunksOf ((width * bitdepth + 7) / 8) bytes).flatMap
      fun row => (row.flatMap (unpackFields bitdepth)).take width)
  else none

/-! ## RLE encoder (`rle_encode`, `src/send_osc.rs` lines 237-297) -/

/-- `BYTES_PER_SEND` (`src/send_osc.rs` line 309): the `FRAME_SIZE` of
the spec. -/
def BYTES_PER_SEND : Nat := 24

/-- `PALETTE_COLORS_PER_SEND` (line 310): colors per palette frame. -/
def PALETTE_COLORS_PER_SEND : Nat := (BYTES_PER_SEND - 1) / 3

/-- `COLORS_AT_A_TIME` (line 523): `BYTES_PER_SEND.div_ceil(3) - 1`. -/
def COLORS_AT_A_TIME : Nat := (BYTES_PER_SEND + 3 - 1) / 3 - 1

/-- Loop state of `rle_encode`: the output built so far and the mutable
locals `count` and `current_value`. -/
structure RleState where
  result : List Nat
  count : Nat
  current_value : Option Nat
deriving DecidableEq, Repr

/-- The helper `maybe_push` (lines 244-265): flush the open run into
`result` and restart a length-1 run holding `value`; no-op when no run is
open.  `none` models the `panic!` on `count == 0` with an open run. -/
def maybe_push (s : RleState) (value : Nat) : Option RleState :=
  match s.current_value with
  | none => some s
  | some curval =>
    if 1 < s.count then
      some ⟨s.result ++ [curval, curval, s.count], 1, some value⟩
    else if s.count = 1 then
      some ⟨s.result ++ [curval], 1, some value⟩
    else none

/-- One iteration of the `for` loop of `rle_encode` (lines 267-293) on
the next input byte `value`.  `s.count = 255` is exactly the case where
the `u8` `count.checked_add(1)` returns `None`.  `none` models the
`assert!(count == 1)` and `expect` panics of the frame-boundary branch. -/
def rleStep (s : RleState) (value : Nat) : Option RleState :=
  if BYTES_PER_SEND - 2 ≤ s.result.length % BYTES_PER_SEND then
    if s.count = 1 then
      match s.current_value with
      | some curval => some ⟨s.result ++ [curval], 1, some value⟩
      | none => none
    else none
  else
    match s.current_value with
    | none => some ⟨s.result, 1, some value⟩
    | some curval =>
      if value = curval then
        if s.count = 255 then
          some ⟨s.result ++ [curval, curval, s.count], 1, s.current_value⟩
        else
          some ⟨s.result, s.count + 1, s.current_value⟩
      else
        maybe_push s value

/-- The `for` loop of `rle_encode` over the whole input. -/
def rleRun : RleState → List Nat → Option RleState
  | s, [] => some s
  | s, v :: rest =>
    match rleStep s v with
    | none => none
    | some s2 => rleRun s2 rest

/-- `rle_encode` (lines 237-297): run the loop from the empty state, then
the final `maybe_push(…, 0)` flush.  `none` models a panic (proved
unreachable in `rle_encode_never_panics`). -/
def rle_encode (input : List Nat) : Option (List Nat) :=
  match rleRun ⟨[], 0, none⟩ input with
  | none => none
  | some s =>
    match maybe_push s 0 with
    | none => none
    | some s2 => some s2.result

/-- Modelled from the spec (§4.3): the frame-windowed RLE decoder is not
part of this repository (the receiving shader decodes one frame at a
time).  "a run is recognized whenever two consecutive bytes are equal and
a count byte follows, except at the last two positions of a
FRAME_SIZE-sized window, where bytes are always literal."  `pos` is the
absolute position of the first element of `enc` in the encoded stream;
the windows are the consecutive `BYTES_PER_SEND`-byte blocks of that
stream, so a byte is "at the last two positions of a window" exactly when
its position modulo `BYTES_PER_SEND` is `BYTES_PER_SEND - 2` or
`BYTES_PER_SEND - 1`. -/
def rle_decode : Nat → List Nat → List Nat
  | _, [] => []
  | pos, a :: b :: c :: rest =>
    if BYTES_PER_SEND - 2 ≤ pos % BYTES_PER_SEND then
      a :: rle_decode (pos + 1) (b :: c :: rest)
    else if a = b then
      List.replicate c a ++ rle_decode (pos + 3) rest
    else
      a :: rle_decode (pos + 1) (b :: c :: rest)
  | pos, a :: rest => a :: rle_decode (pos + 1) rest

/-! ### The item view of the encoder (proof device)

`rle_encode` appends to its output in three shapes only: a single literal
byte, or a `(v, v, count)` triple.  The itemized encoder below is the
same state machine recording those emissions as items; `rle_encode` is
proved equal to the flattening of its output. -/

/-- One emission of `rle_encode`: a literal byte or a `(v, v, c)` triple. -/
inductive RItem where
  | lit (v : Nat)
  | run (v : Nat) (c : Nat)
deriving DecidableEq, Repr

/-- The bytes an item contributes to the encoded stream. -/
def RItem.bytes : RItem → List Nat
  | .lit v => [v]
  | .run v c => [v, v, c]

/-- The first encoded byte of an item. -/
def RItem.firstByte : RItem → Nat
  | .lit v => v
  | .run v _ => v

/-- The bytes of the original stream an item stands for. -/
def RItem.sem : RItem → List Nat
  | .lit v => [v]
  | .run v c => List.replicate c v

/-- The encoded stream of an item list. -/
def flatBytes (items : List RItem) : List Nat := items.flatMap RItem.bytes

/-- The decoded meaning of an item list. -/
def flatSem (items : List RItem) : List Nat := items.flatMap RItem.sem

/-- State of the itemized encoder. -/
structure ItState where
  items : List RItem
  count : Nat
  current_value : Option Nat
deriving DecidableEq, Repr

/-- `maybe_push`, itemized. -/
def itMaybePush (s : ItState) (value : Nat) : Option ItState :=
  match s.current_value with
  | none => some s
  | some curval =>
    if 1 < s.count then
      some ⟨s.items ++ [.run curval s.count], 1, some value⟩
    else if s.count = 1 then
      some ⟨s.items ++ [.lit curval], 1, some value⟩
    else none

/-- One loop iteration, itemized. -/
def itStep (s : ItState) (value : Nat) : Option ItState :=
  if BYTES_PER_SEND - 2 ≤ (flatBytes s.items).length % BYTES_PER_SEND then
    if s.count = 1 then
      match s.current_value with
      | some curval => some ⟨s.items ++ [.lit curval], 1, some value⟩
      | none => none
    else none
  else
    match s.current_value with
    | none => some ⟨s.items, 1, some value⟩
    | some curval =>
      if value = curval then
        if s.count = 255 then
          some ⟨s.items ++ [.run curval s.count], 1, s.current_value⟩
        else
          some ⟨s.items, s.count + 1, s.current_value⟩
      else
        itMaybePush s value

/-- The loop, itemized. -/
def itRun : ItState → List Nat → Option ItState
  | s, [] => some s
  | s, v :: rest =>
    match itStep s v with
    | none => none
    | some s2 => itRun s2 rest

/-- Run the itemized loop from state `s` and flush. -/
def itEncodeFrom (s : ItState) (input : List Nat) : Option (List RItem) :=
  match itRun s input with
  | none => none
  | some s2 =>
    match itMaybePush s2 0 with
    | none => none
    | some s3 => some s3.items

/-- The item stream emitted by `rle_encode` on `input`. -/
def itEncode (input : List Nat) : Option (List RItem) :=
  itEncodeFrom ⟨[], 0, none⟩ input

/-- Well-formedness of an item stream for the frame-windowed decoder.
`pos` is the absolute byte position where the stream starts and `forb`
the junction condition inherited from the item before it: after a literal
`v` at an unprotected position the next item must not start with the byte
`v` (else the decoder would misread a run there).  A run triple must
start strictly before the two trailing positions of a
`BYTES_PER_SEND`-window. -/
inductive GoodAt : Nat → Option Nat → List RItem → Prop where
  | nil (pos : Nat) (forb : Option Nat) : GoodAt pos forb []
  | lit (pos : Nat) (forb : Option Nat) (v : Nat) (rest : List RItem)
      (hf : forb ≠ some v)
      (hrest : GoodAt (pos + 1)
        (if BYTES_PER_SEND - 2 ≤ pos % BYTES_PER_SEND then none else some v)
        rest) :
      GoodAt pos forb (.lit v :: rest)
  | run (pos : Nat) (forb : Option Nat) (v c : Nat) (rest : List RItem)
      (hf : forb ≠ some v)
      (hpos : pos % BYTES_PER_SEND < BYTES_PER_SEND - 2)
      (hrest : GoodAt (pos + 3) none rest) :
      GoodAt pos forb (.run v c :: rest)

/-- The junction condition carried by an already-emitted item list: the
value the next emitted item must not start with. -/
def lastForbidden (items : List RItem) : Option Nat :=
  match items.getLast? with
  | some (.lit v) =>
    if BYTES_PER_SEND - 2 ≤ ((flatBytes items).length - 1) % BYTES_PER_SEND
    then none
    else some v
  | _ => none

/-- Decidable check of the literal C2 property: no run triple places any
of its three bytes at position `BYTES_PER_SEND - 2` or
`BYTES_PER_SEND - 1` modulo `BYTES_PER_SEND` of the output. -/
def runsAvoidTail : Nat → List RItem → Bool
  | _, [] => true
  | pos, .lit _ :: rest => runsAvoidTail (pos + 1) rest
  | pos, .run _ _ :: rest =>
    decide (pos % BYTES_PER_SEND < BYTES_PER_SEND - 2) &&
    decide ((pos + 1) % BYTES_PER_SEND < BYTES_PER_SEND - 2) &&
    decide ((pos + 2) % BYTES_PER_SEND < BYTES_PER_SEND - 2) &&
    runsAvoidTail (pos + 3) rest

/-- Decidable check of the amended C2 property: every run triple starts
strictly before the two trailing positions of its window, i.e. the
encoder emits only literals when its write position is at the last two
positions of a `BYTES_PER_SEND` block (so no triple ever straddles a
block boundary). -/
def runsStartOk : Nat → List RItem → Bool
  | _, [] => true
  | pos, .lit _ :: rest => runsStartOk (pos + 1) rest
  | pos, .run _ _ :: rest =>
    decide (pos % BYTES_PER_SEND < BYTES_PER_SEND - 2) && runsStartOk (pos + 3) rest

/-- The byte-level state an itemized state stands for. -/
def toByte (t : ItState) : RleState :=
  ⟨flatBytes t.items, t.count, t.current_value⟩

/-- The input bytes of the currently open run. -/
def ItState.pending (s : ItState) : List Nat :=
  match s.current_value with
  | some v => List.replicate s.count v
  | none => []

/-- The input prefix an itemized state stands for: the meaning of the
emitted items followed by the open run. -/
def semOf (s : ItState) : List Nat := flatSem s.items ++ s.pending

/-- The loop invariant of the (itemized) encoder:
no open run means nothing consumed yet; an open run has `1 ≤ count ≤ 255`;
a run of length ≥ 2 can only be open while the write position is strictly
before the two trailing positions of a frame (the boundary branch, taken
first, closes runs there); and whenever the junction condition forbids a
byte, the open run holds a different byte. -/
def InvIt (s : ItState) : Prop :=
  (s.current_value = none → s.count = 0 ∧ s.items = []) ∧
  (∀ w, s.current_value = some w → 1 ≤ s.count ∧ s.count ≤ 255) ∧
  (2 ≤ s.count →
    (flatBytes s.items).length % BYTES_PER_SEND < BYTES_PER_SEND - 2) ∧
  (∀ v, lastForbidden s.items = some v →
    ∃ w, s.current_value = some w ∧ w ≠ v)

/-! ## The synchronous setup phase of `send_osc` (lines 320-389) -/

/-- `quantizr::Color`: one palette entry. -/
structure QColor where
  r : Nat
  g : Nat
  b : Nat
  a : Nat
deriving DecidableEq, Repr

/-- The `Color` enum of `src/send_osc.rs` (lines 22-27). -/
inductive Color where
  | grayscale
  | indexed
deriving DecidableEq, Repr

/-- The `PixFmt` enum (lines 47-54). -/
inductive PixFmt where
  | auto (c : Color)
  | bpp1 (c : Color)
  | bpp2 (c : Color)
  | bpp4 (c : Color)
  | bpp8 (c : Color)
deriving DecidableEq, Repr

/-- `SendOSCOpts` (lines 299-305).  `msgs_per_second : f64` is omitted:
it only feeds the pacing sleep duration (floating point, no effect on any
message content, count or ordering). -/
structure SendOSCOpts where
  pixfmt : PixFmt
  linesync : Bool
  rle_compression : Bool
deriving DecidableEq, Repr

/-- Network-side actions of the synchronous part of `send_osc`: the only
one is the `UdpSocket::bind` at line 338.  Datagram sends happen only in
the spawned thread. -/
inductive SetupEvent where
  | bind
deriving DecidableEq, Repr

/-- What the synchronous phase hands to the spawned thread. -/
structure SetupResult where
  bitdepth : Nat
  color : Color
  stream : List Nat
deriving DecidableEq, Repr

/-- The synchronous prefix of `send_osc` (lines 320-389, everything
before `thread::spawn`): size checks, socket bind, bit-depth resolution
from `pixfmt` and the palette length, packing, and optional RLE
compression.  Returns the network-side events performed together with
either the error returned to the caller or the data the spawned thread
closes over.  The `f64` `sleep_time` (line 340) is pure arithmetic with
no observable effect and is omitted; the two "unreachable" errors model
panics on paths proved impossible. -/
def send_osc_setup (indexes : List Nat) (palette : List QColor)
    (width height : Nat) (options : SendOSCOpts) :
    List SetupEvent × Except String SetupResult :=
  if indexes.length = 0 ∨ width = 0 ∨ height = 0 then
    ([], .error "indexes, width or height are 0 and they shouldn't be")
  else if indexes.length ≠ width * height then
    ([], .error "width and height not matching length of indexes array")
  else
    let events := [SetupEvent.bind]
    let bd : Except String (Nat × Color) :=
      match options.pixfmt with
      | .auto col =>
        if palette.length ≤ 2 then .ok (1, col)
        else if palette.length ≤ 4 then .ok (2, col)
        else if palette.length ≤ 16 then .ok (4, col)
        else if palette.length ≤ 256 then .ok (8, col)
        else .error "Too large palette"
      | .bpp1 col => .ok (1, col)
      | .bpp2 col => .ok (2, col)
      | .bpp4 col => .ok (4, col)
      | .bpp8 col => .ok (8, col)
    match bd with
    | .error e => (events, .error e)
    | .ok (bitdepth, col) =>
      match pack_bytes_clone indexes width bitdepth with
      | none => (events, .error "unreachable: pack_bytes_clone panicked")
      | some packed =>
        if options.rle_compression then
          match rle_encode packed with
          | none => (events, .error "unreachable: rle_encode panicked")
          | some compressed => (events, .ok ⟨bitdepth, col, compressed⟩)
        else (events, .ok ⟨bitdepth, col, packed⟩)

/-! ## The spawned transmission body (lines 389-621) -/

/-- Command constants (lines 313-318). -/
def SETPIXEL_COMMAND : Nat := 0x80

def PALETTEWRITE_COMMAND : Nat := 0xc0

def BITDEPTH_PIXEL : Nat := 2

def PALETTECTRL_PIXEL : Nat := 3

def PALETTEWRIDX_PIXEL : Nat := 4

def COMPRESSIONCTRL_PIXEL : Nat := 5

/-- One observable action of the spawned thread.  `send_cmd` (one
register-write frame: `BYTES_PER_SEND` per-register `send_int` messages,
the command slice zero-padded) is one event, tagged by its call site:
configuration frame, palette frame, or pixel-chunk frame. -/
inductive BodyEvent where
  | boolMsg (var : String) (b : Bool)
  | intMsg (var : String) (i : Nat)
  | clkMsg (b : Bool)
  | cfgCmd (data : List Nat)
  | palCmd (data : List Nat)
  | pixCmd (data : List Nat)
  | progressMsg
  | deleteWindowMsg
deriving DecidableEq, Repr

/-- The bit-depth register value (lines 497-503).  The `panic!` arm is
unreachable from `send_osc_setup`, which only yields depths 1, 2, 4, 8. -/
def bppRegValue (bitdepth : Nat) : Nat :=
  match bitdepth with
  | 1 => 192
  | 2 => 128
  | 4 => 64
  | _ => 0

/-- One palette frame (lines 532-541): the palette-write command byte,
then 3 bytes per color, remaining bytes zero. -/
def palChunkBytes (chunk : List QColor) : List Nat :=
  (PALETTEWRITE_COMMAND :: chunk.flatMap fun c => [c.r, c.g, c.b])
    ++ List.replicate (BYTES_PER_SEND - (1 + 3 * chunk.length)) 0

/-- The palette upload loop (lines 526-549): per chunk, one cancel poll
(`cancel_flag.load`), then one palette frame, one clock toggle and one
progress message.  `flag n` is the value the shared cancel flag would be
seen to hold at the `n`-th poll of the run.  Returns the events, the next
poll index, the next clock phase, and whether the loop observed
cancellation (the early `return Ok(())`). -/
def palLoop (flag : Nat → Bool) :
    List (List QColor) → Nat → Bool → List BodyEvent × Nat × Bool × Bool
  | [], polls, clk => ([], polls, clk, false)
  | chunk :: rest, polls, clk =>
    if flag polls then ([], polls, clk, true)
    else
      let t := palLoop flag rest (polls + 1) (!clk)
      (.palCmd (palChunkBytes chunk) :: .clkMsg clk :: .progressMsg :: t.1,
        t.2.1, t.2.2.1, t.2.2.2)

/-- The pixel streaming loop (lines 588-606): per `BYTES_PER_SEND`-byte
chunk of the stream, one cancel poll before sending, then the pixel
frame, clock toggle and progress message. -/
def pixLoop (flag : Nat → Bool) :
    List (List Nat) → Nat → Bool → List BodyEvent × Nat × Bool × Bool
  | [], polls, clk => ([], polls, clk, false)
  | chunk :: rest, polls, clk =>
    if flag polls then ([], polls, clk, true)
    else
      let t := pixLoop flag rest (polls + 1) (!clk)
      (.pixCmd chunk :: .clkMsg clk :: .progressMsg :: t.1,
        t.2.1, t.2.2.1, t.2.2.2)

/-- The handshake events up to and including the bit-depth frame (lines
471-506): CLK reset, pixel-pointer reset, compression mode, bit depth.
The clock phase afterwards is `false`. -/
def preludeEvents (r : SetupResult) (rle_compression : Bool) : List BodyEvent :=
  [.progressMsg, .boolMsg "CLK" true, .boolMsg "CLK" false,
   .progressMsg, .intMsg "V0" 0, .boolMsg "Reset" true, .clkMsg true,
   .progressMsg,
   .cfgCmd [SETPIXEL_COMMAND, COMPRESSIONCTRL_PIXEL, 0,
     if rle_compression then 255 else 0, 0, 0, 0],
   .clkMsg false,
   .progressMsg,
   .cfgCmd [SETPIXEL_COMMAND, BITDEPTH_PIXEL, 0, bppRegValue r.bitdepth,
     0, 0, 0],
   .clkMsg true]

/-- The spawned thread (the closure of lines 389-621): the inner
transmission body (lines 467-611) followed by the unconditional
`DeleteWindow` message (line 617).  The socket sends are modelled as
events and assumed to succeed (transport failures are outside the model),
so the body's result is always `Ok(())`; cancellation is the early
`return Ok(())`. -/
def send_osc_thread (r : SetupResult) (rle_compression : Bool)
    (palette : List QColor) (flag : Nat → Bool) :
    List BodyEvent × Except String Unit :=
  match r.color with
  | .indexed =>
    let preP : List BodyEvent :=
      [.progressMsg,
       .cfgCmd [SETPIXEL_COMMAND, PALETTEWRIDX_PIXEL, 0, 0, 0, 0, 0],
       .clkMsg false]
    let p := palLoop flag (chunksOf COLORS_AT_A_TIME palette) 0 true
    if p.2.2.2 then
      (preludeEvents r rle_compression ++ preP ++ p.1 ++ [.deleteWindowMsg],
        .ok ())
    else
      let postP : List BodyEvent :=
        [.progressMsg,
         .cfgCmd [SETPIXEL_COMMAND, PALETTECTRL_PIXEL, 0, 255, 0, 0, 0],
         .clkMsg p.2.2.1,
         .progressMsg, .boolMsg "Reset" false]
      let x := pixLoop flag (chunksOf BYTES_PER_SEND r.stream) p.2.1 (!p.2.2.1)
      (preludeEvents r rle_compression ++ preP ++ p.1 ++ postP ++ x.1
        ++ [.deleteWindowMsg], .ok ())
  | .grayscale =>
    let preG : List BodyEvent :=
      [.progressMsg,
       .cfgCmd [SETPIXEL_COMMAND, PALETTECTRL_PIXEL, 0, 0, 0, 0, 0],
       .clkMsg false,
       .progressMsg, .boolMsg "Reset" false]
    let x := pixLoop flag (chunksOf BYTES_PER_SEND r.stream) 0 true
    (preludeEvents r rle_compression ++ preG ++ x.1 ++ [.deleteWindowMsg],
      .ok ())

/-- The number of pixel-chunk register-write frames in a trace. -/
def pixCmdCount (tr : List BodyEvent) : Nat :=
  tr.countP fun e =>
    match e with
    | .pixCmd _ => true
    | _ => false

/-- The poll index of the first pixel-loop cancel check in a run that
reaches the pixel loop: the number of polls the palette loop performs. -/
def firstPixelPoll (r : SetupResult) (palette : List QColor) : Nat :=
  match r.color with
  | .indexed => (chunksOf COLORS_AT_A_TIME palette).length
  | .grayscale => 0

/-- Unfolding lemma: `send_or_replace_if` on a queue with back element `a`. -/
theorem mqSendOrReplaceIf_concat (pred : α → Bool) (l : List α) (a v : α) :
    mqSendOrReplaceIf pred (l ++ [a]) v =
      if pred a then l ++ [v] else l ++ [a] ++ [v] := by
  unfold mqSendOrReplaceIf
  rw [List.getLast?_concat]
  simp [List.dropLast_concat]

/-- C4. Queue replace-if semantics: `send_or_replace_if` with an
always-false predicate is identical to `send` (appends `val` at the back,
growing the length by exactly 1); with an always-true predicate on a
non-empty queue the length is unchanged, the back element becomes `val`,
and every other element is untouched. -/
theorem mq_send_or_replace_if_semantics (α : Type) (q : List α) (v : α) :
    mqSendOrReplaceIf (fun _ => false) q v = mqSend q v ∧
    mqSend q v = q ++ [v] ∧
    (mqSend q v).length = q.length + 1 ∧
    (q ≠ [] →
      (mqSendOrReplaceIf (fun _ => true) q v).length = q.length ∧
      (mqSendOrReplaceIf (fun _ => true) q v).getLast? = some v ∧
      (mqSendOrReplaceIf (fun _ => true) q v).dropLast = q.dropLast) := by
  refine ⟨?_, rfl, by simp [mqSend], ?_⟩
  · unfold mqSendOrReplaceIf mqSend
    cases q.getLast? <;> simp
  · intro hq
    rcases q.eq_nil_or_concat with rfl | ⟨l, a, rfl⟩
    · exact absurd rfl hq
    · unfold mqSendOrReplaceIf
      simp [List.getLast?_concat]

/-- Witness for C4 at the concrete queue `[1, 2]` and value `5`. -/
theorem mq_send_or_replace_if_semantics_witness :
    mqSendOrReplaceIf (fun _ => false) [1, 2] (5 : Nat) = mqSend [1, 2] 5 ∧
    (mqSendOrReplaceIf (fun _ => true) [1, 2] (5 : Nat)).length = 2 ∧
    (mqSendOrReplaceIf (fun _ => true) [1, 2] (5 : Nat)).getLast? = some 5 := by
  have h := mq_send_or_replace_if_semantics Nat [1, 2] 5
  exact ⟨h.1, (h.2.2.2 (by decide)).1, (h.2.2.2 (by decide)).2.1⟩

/-- C5 counterexample: the claim "once a LoadImage, ClearImage, or Quit
message is in the queue and not yet received, no subsequent enqueue
performed by the application (`send`, `send_or_replace`, or
`send_or_replace_if` with the `is_update` predicate) overwrites or removes
it" is false: `main.rs` line 1144 calls `send_or_replace(Quit)`, and
`send_or_replace` on the queue `[LoadImage]` overwrites the pending
`LoadImage` with `Quit`. -/
theorem bg_structural_never_dropped_cex :
    ¬ (∀ (q : List (BgMessage Unit Unit Unit)) (v m : BgMessage Unit Unit Unit) (i : Nat),
        q[i]? = some m → m.isStructural = true →
        (mqSend q v)[i]? = some m ∧
        (mqSendOrReplace q v)[i]? = some m ∧
        (mqSendOrReplaceIf BgMessage.is_update q v)[i]? = some m) := by
  intro h
  have h2 := (h [.loadImage ()] .quit (.loadImage ()) 0 rfl rfl).2.1
  exact absurd h2 (by decide)

/-- C5 amended: `send` and `send_or_replace_if` with the `is_update`
predicate never overwrite or remove a pending message that is not an
`UpdateImage` (in particular `LoadImage`, `ClearImage`, `Quit`): such a
message stays at its queue position.  (The unconditional `send_or_replace`,
which the application uses once for `Quit` at shutdown, is excluded: it
overwrites whatever message is last.) -/
theorem bg_non_update_preserved (P U S : Type) (q : List (BgMessage P U S))
    (v m : BgMessage P U S) (i : Nat)
    (hm : q[i]? = some m) (hnu : m.is_update = false) :
    (mqSend q v)[i]? = some m ∧
    (mqSendOrReplaceIf BgMessage.is_update q v)[i]? = some m := by
  have hi : i < q.length := by
    by_contra hh
    rw [List.getElem?_eq_none (Nat.le_of_not_lt hh)] at hm
    exact Option.noConfusion hm
  constructor
  · rw [mqSend, List.getElem?_append_left hi]
    exact hm
  · rcases q.eq_nil_or_concat with rfl | ⟨l, a, rfl⟩
    · simp at hi
    · simp only [List.concat_eq_append] at hm hi ⊢
      rw [mqSendOrReplaceIf_concat]
      by_cases hpred : a.is_update = true
      · rw [if_pos hpred]
        have hil : i < l.length := by
          rcases Nat.lt_trichotomy i l.length with hlt | heq | hgt
          · exact hlt
          · exfalso
            subst heq
            rw [List.getElem?_append_right (Nat.le_refl _)] at hm
            simp at hm
            subst hm
            rw [hpred] at hnu
            exact Bool.noConfusion hnu
          · exfalso
            simp at hi
            omega
        rw [List.getElem?_append_left hil]
        rw [List.getElem?_append_left hil] at hm
        exact hm
      · rw [if_neg hpred, List.getElem?_append_left hi]
        exact hm

/-- Witness for the amended C5 at the concrete queue
`[LoadImage, UpdateImage]`, enqueued value `ClearImage`, position 0. -/
theorem bg_non_update_preserved_witness :
    (mqSend [BgMessage.loadImage (), BgMessage.updateImage ()]
      (BgMessage.clearImage : BgMessage Unit Unit Unit))[0]? = some (.loadImage ()) ∧
    (mqSendOrReplaceIf BgMessage.is_update
      [BgMessage.loadImage (), BgMessage.updateImage ()]
      (BgMessage.clearImage : BgMessage Unit Unit Unit))[0]? = some (.loadImage ()) :=
  bg_non_update_preserved Unit Unit Unit _ _ _ 0 rfl rfl

/-! ### Chunking lemmas -/

theorem chunksOf_nil (k : Nat) : chunksOf k ([] : List α) = [] := by
  rw [chunksOf]
  simp

theorem chunksOf_eq_cons (k : Nat) (l : List α) (hk : 0 < k) (hl : 0 < l.length) :
    chunksOf k l = l.take k :: chunksOf k (l.drop k) := by
  rw [chunksOf, dif_pos ⟨hk, hl⟩]

theorem chunksExact_eq_cons (k : Nat) (l : List α) (hk : 0 < k) (hl : k ≤ l.length) :
    chunksExact k l = l.take k :: chunksExact k (l.drop k) := by
  rw [chunksExact, dif_pos ⟨hk, hl⟩]

theorem chunksExact_eq_nil (k : Nat) (l : List α) (h : ¬(0 < k ∧ k ≤ l.length)) :
    chunksExact k l = [] := by
  rw [chunksExact, dif_neg h]

theorem chunksOf_eq_nil (k : Nat) (l : List α) (h : ¬(0 < k ∧ 0 < l.length)) :
    chunksOf k l = [] := by
  rw [chunksOf, dif_neg h]

/-- The number of `chunks(k)` of a list: `ceil(length / k)`. -/
theorem chunksOf_length (k : Nat) (hk : 0 < k) (l : List α) :
    (chunksOf k l).length = (l.length + k - 1) / k := by
  generalize hn : l.length = n
  induction n using Nat.strong_induction_on generalizing l with
  | _ n ih =>
    by_cases h0 : l.length = 0
    · rw [List.length_eq_zero.mp h0, chunksOf_nil]
      rw [← hn, h0]
      exact (Nat.div_eq_of_lt (by omega)).symm
    · rw [chunksOf_eq_cons k l hk (by omega), List.length_cons,
        ih (l.drop k).length (by simp; omega) (l.drop k) rfl]
      simp only [List.length_drop, ← hn]
      rcases Nat.lt_or_ge l.length k with hlt | hge
      · have h1 : l.length - k = 0 := by omega
        rw [h1]
        rw [Nat.div_eq_of_lt (by omega)]
        exact (Nat.div_eq_of_lt_le (by omega) (by omega)).symm
      · have h2 : l.length + k - 1 = (l.length - k + k - 1) + k := by omega
        rw [h2, Nat.add_div_right _ hk]

/-- `chunks(k)` of a concatenation whose first part has length exactly `k`. -/
theorem chunksOf_append_of_length (k : Nat) (xs ys : List α) (hk : 0 < k)
    (hxs : xs.length = k) :
    chunksOf k (xs ++ ys) = xs :: chunksOf k ys := by
  rw [chunksOf_eq_cons k (xs ++ ys) hk (by simp; omega)]
  rw [List.take_left' hxs, List.drop_left' hxs]

/-- `chunks_exact(k)` commutes with `map`. -/
theorem chunksExact_map (k : Nat) (f : α → β) (l : List α) :
    chunksExact k (l.map f) = (chunksExact k l).map (List.map f) := by
  generalize hn : l.length = n
  induction n using Nat.strong_induction_on generalizing l with
  | _ n ih =>
    by_cases h : 0 < k ∧ k ≤ l.length
    · rw [chunksExact_eq_cons k l h.1 h.2,
        chunksExact_eq_cons k (l.map f) h.1 (by simp; omega)]
      rw [List.map_cons]
      congr 1
      · simp
      · have hd : (l.map f).drop k = (l.drop k).map f := by simp
        rw [hd, ih (l.drop k).length (by simp; omega) (l.drop k) rfl]
    · rw [chunksExact_eq_nil k l h, chunksExact_eq_nil k (l.map f) (by simp at h ⊢; omega)]
      rfl

/-- `chunks(k)` commutes with `map`. -/
theorem chunksOf_map (k : Nat) (f : α → β) (l : List α) :
    chunksOf k (l.map f) = (chunksOf k l).map (List.map f) := by
  generalize hn : l.length = n
  induction n using Nat.strong_induction_on generalizing l with
  | _ n ih =>
    by_cases h : 0 < k ∧ 0 < l.length
    · rw [chunksOf_eq_cons k l h.1 h.2,
        chunksOf_eq_cons k (l.map f) h.1 (by simp; omega)]
      rw [List.map_cons]
      congr 1
      · simp
      · have hd : (l.map f).drop k = (l.drop k).map f := by simp
        rw [hd, ih (l.drop k).length (by simp; omega) (l.drop k) rfl]
    · rw [chunksOf_eq_nil k l h, chunksOf_eq_nil k (l.map f) (by simpa using h)]
      rfl

/-! ### One packed byte unpacks to its group of indices (padded with zeros)

Verified exhaustively over the value range of each depth. -/

theorem up4_1 : ∀ a : Fin 16,
    unpackFields 4 (packByte4 [a.1]) = [a.1, 0] := by decide

theorem up4_2 : ∀ a b : Fin 16,
    unpackFields 4 (packByte4 [a.1, b.1]) = [a.1, b.1] := by decide

theorem up2_1 : ∀ a : Fin 4,
    unpackFields 2 (packByte2 [a.1]) = [a.1, 0, 0, 0] := by decide

theorem up2_2 : ∀ a b : Fin 4,
    unpackFields 2 (packByte2 [a.1, b.1]) = [a.1, b.1, 0, 0] := by decide

theorem up2_3 : ∀ a b c : Fin 4,
    unpackFields 2 (packByte2 [a.1, b.1, c.1]) = [a.1, b.1, c.1, 0] := by decide

theorem up2_4 : ∀ a b c d : Fin 4,
    unpackFields 2 (packByte2 [a.1, b.1, c.1, d.1]) = [a.1, b.1, c.1, d.1] := by decide

theorem up1_1 : ∀ a : Fin 2,
    unpackFields 1 (packByte1 [a.1]) = [a.1, 0, 0, 0, 0, 0, 0, 0] := by decide

theorem up1_2 : ∀ a b : Fin 2,
    unpackFields 1 (packByte1 [a.1, b.1]) = [a.1, b.1, 0, 0, 0, 0, 0, 0] := by decide

theorem up1_3 : ∀ a b c : Fin 2,
    unpackFields 1 (packByte1 [a.1, b.1, c.1]) = [a.1, b.1, c.1, 0, 0, 0, 0, 0] := by
  decide

theorem up1_4 : ∀ a b c d : Fin 2,
    unpackFields 1 (packByte1 [a.1, b.1, c.1, d.1])
      = [a.1, b.1, c.1, d.1, 0, 0, 0, 0] := by decide

theorem up1_5 : ∀ a b c d e : Fin 2,
    unpackFields 1 (packByte1 [a.1, b.1, c.1, d.1, e.1])
      = [a.1, b.1, c.1, d.1, e.1, 0, 0, 0] := by decide

theorem up1_6 : ∀ a b c d e f : Fin 2,
    unpackFields 1 (packByte1 [a.1, b.1, c.1, d.1, e.1, f.1])
      = [a.1, b.1, c.1, d.1, e.1, f.1, 0, 0] := by decide

theorem up1_7 : ∀ a b c d e f g : Fin 2,
    unpackFields 1 (packByte1 [a.1, b.1, c.1, d.1, e.1, f.1, g.1])
      = [a.1, b.1, c.1, d.1, e.1, f.1, g.1, 0] := by decide

theorem up1_8 : ∀ a b c d e f g h : Fin 2,
    unpackFields 1 (packByte1 [a.1, b.1, c.1, d.1, e.1, f.1, g.1, h.1])
      = [a.1, b.1, c.1, d.1, e.1, f.1, g.1, h.1] := by decide

/-- Any non-empty group of at most 2 indices below 16 unpacks from its
4-bpp packed byte to the group plus zero padding. -/
theorem unpackFields_packByte4 (c : List Nat) (hne : c ≠ []) (hlen : c.length ≤ 2)
    (hv : ∀ v ∈ c, v < 16) :
    unpackFields 4 (packByte4 c) = c ++ List.replicate (2 - c.length) 0 := by
  match c with
  | [] => exact absurd rfl hne
  | [a] =>
    exact up4_1 ⟨a, hv a (by simp)⟩
  | [a, b] =>
    exact up4_2 ⟨a, hv a (by simp)⟩ ⟨b, hv b (by simp)⟩
  | _ :: _ :: _ :: _ => simp at hlen

/-- Any non-empty group of at most 4 indices below 4 unpacks from its
2-bpp packed byte to the group plus zero padding. -/
theorem unpackFields_packByte2 (c : List Nat) (hne : c ≠ []) (hlen : c.length ≤ 4)
    (hv : ∀ v ∈ c, v < 4) :
    unpackFields 2 (packByte2 c) = c ++ List.replicate (4 - c.length) 0 := by
  match c with
  | [] => exact absurd rfl hne
  | [a] => exact up2_1 ⟨a, hv a (by simp)⟩
  | [a, b] => exact up2_2 ⟨a, hv a (by simp)⟩ ⟨b, hv b (by simp)⟩
  | [a, b, c] =>
    exact up2_3 ⟨a, hv a (by simp)⟩ ⟨b, hv b (by simp)⟩ ⟨c, hv c (by simp)⟩
  | [a, b, c, d] =>
    exact up2_4 ⟨a, hv a (by simp)⟩ ⟨b, hv b (by simp)⟩ ⟨c, hv c (by simp)⟩
      ⟨d, hv d (by simp)⟩
  | _ :: _ :: _ :: _ :: _ :: _ => simp at hlen

/-- Any non-empty group of at most 8 indices below 2 unpacks from its
1-bpp packed byte to the group plus zero padding. -/
theorem unpackFields_packByte1 (c : List Nat) (hne : c ≠ []) (hlen : c.length ≤ 8)
    (hv : ∀ v ∈ c, v < 2) :
    unpackFields 1 (packByte1 c) = c ++ List.replicate (8 - c.length) 0 := by
  match c with
  | [] => exact absurd rfl hne
  | [a] => exact up1_1 ⟨a, hv a (by simp)⟩
  | [a, b] => exact up1_2 ⟨a, hv a (by simp)⟩ ⟨b, hv b (by simp)⟩
  | [a, b, c] =>
    exact up1_3 ⟨a, hv a (by simp)⟩ ⟨b, hv b (by simp)⟩ ⟨c, hv c (by simp)⟩
  | [a, b, c, d] =>
    exact up1_4 ⟨a, hv a (by simp)⟩ ⟨b, hv b (by simp)⟩ ⟨c, hv c (by simp)⟩
      ⟨d, hv d (by simp)⟩
  | [a, b, c, d, e] =>
    exact up1_5 ⟨a, hv a (by simp)⟩ ⟨b, hv b (by simp)⟩ ⟨c, hv c (by simp)⟩
      ⟨d, hv d (by simp)⟩ ⟨e, hv e (by simp)⟩
  | [a, b, c, d, e, f] =>
    exact up1_6 ⟨a, hv a (by simp)⟩ ⟨b, hv b (by simp)⟩ ⟨c, hv c (by simp)⟩
      ⟨d, hv d (by simp)⟩ ⟨e, hv e (by simp)⟩ ⟨f, hv f (by simp)⟩
  | [a, b, c, d, e, f, g] =>
    exact up1_7 ⟨a, hv a (by simp)⟩ ⟨b, hv b (by simp)⟩ ⟨c, hv c (by simp)⟩
      ⟨d, hv d (by simp)⟩ ⟨e, hv e (by simp)⟩ ⟨f, hv f (by simp)⟩
      ⟨g, hv g (by simp)⟩
  | [a, b, c, d, e, f, g, h] =>
    exact up1_8 ⟨a, hv a (by simp)⟩ ⟨b, hv b (by simp)⟩ ⟨c, hv c (by simp)⟩
      ⟨d, hv d (by simp)⟩ ⟨e, hv e (by simp)⟩ ⟨f, hv f (by simp)⟩
      ⟨g, hv g (by simp)⟩ ⟨h, hv h (by simp)⟩
  | _ :: _ :: _ :: _ :: _ :: _ :: _ :: _ :: _ :: _ => simp at hlen

/-! ### Row-level and stream-level round trip -/

/-- Unpacking the packed bytes of one line of indices yields the line
followed by the zero padding of its final short group. -/
theorem flatMap_unpack_chunksOf (d k : Nat) (pb : List Nat → Nat) (hk : 0 < k)
    (hfield : ∀ c : List Nat, c ≠ [] → c.length ≤ k → (∀ v ∈ c, v < 2 ^ d) →
      unpackFields d (pb c) = c ++ List.replicate (k - c.length) 0)
    (line : List Nat) (hv : ∀ v ∈ line, v < 2 ^ d) :
    ((chunksOf k line).map pb).flatMap (unpackFields d)
      = line ++ List.replicate (k * (chunksOf k line).length - line.length) 0 := by
  generalize hn : line.length = n
  induction n using Nat.strong_induction_on generalizing line with
  | _ n ih =>
    by_cases h0 : line.length = 0
    · rw [List.length_eq_zero.mp h0, chunksOf_nil]
      simp
    · rw [chunksOf_eq_cons k line hk (by omega)]
      rw [List.map_cons, List.flatMap_cons]
      rw [hfield (line.take k)
        (by
          intro hcon
          have hcl := congrArg List.length hcon
          rw [List.length_take, List.length_nil] at hcl
          omega)
        (by simp) (fun v hv' => hv v (List.take_subset _ _ hv'))]
      rw [ih (line.drop k).length (by simp; omega) (line.drop k)
        (fun v hv' => hv v (List.drop_subset _ _ hv')) rfl]
      rcases Nat.lt_or_ge line.length k with hlt | hge
      · have hdrop : line.drop k = [] := List.drop_eq_nil_of_le (by omega)
        have htake : line.take k = line := List.take_of_length_le (by omega)
        subst hn
        rw [hdrop, htake, chunksOf_nil]
        simp
      · have htklen : (line.take k).length = k := by
          rw [List.length_take]
          exact Nat.min_eq_left hge
        rw [htklen, Nat.sub_self]
        simp only [List.replicate_zero, List.append_nil, List.length_cons,
          List.length_drop]
        rw [← List.append_assoc, List.take_append_drop]
        congr 2
        rw [Nat.mul_add, Nat.mul_one]
        omega

/-- The elements of `chunks(k)` have length at most `k`. -/
theorem chunksOf_mem_length (k : Nat) (l : List α) :
    ∀ c ∈ chunksOf k l, c.length ≤ k := by
  generalize hn : l.length = n
  induction n using Nat.strong_induction_on generalizing l with
  | _ n ih =>
    intro c hc
    by_cases h : 0 < k ∧ 0 < l.length
    · rw [chunksOf_eq_cons k l h.1 h.2] at hc
      rcases List.mem_cons.mp hc with rfl | hc'
      · simp
      · exact ih (l.drop k).length (by simp; omega) (l.drop k) rfl c hc'
    · rw [chunksOf_eq_nil k l h] at hc
      simp at hc

/-- Concatenating the `chunks(k)` of a list recovers the list. -/
theorem chunksOf_flatten (k : Nat) (hk : 0 < k) (l : List α) :
    (chunksOf k l).flatten = l := by
  generalize hn : l.length = n
  induction n using Nat.strong_induction_on generalizing l with
  | _ n ih =>
    by_cases h0 : l.length = 0
    · rw [List.length_eq_zero.mp h0, chunksOf_nil]
      rfl
    · rw [chunksOf_eq_cons k l hk (by omega), List.flatten_cons,
        ih (l.drop k).length (by simp; omega) (l.drop k) rfl,
        List.take_append_drop]

/-- `flatMap` of a pointwise-equal function. -/
theorem flatMap_fun_congr (L : List α) (f g : α → List β)
    (h : ∀ x ∈ L, f x = g x) : L.flatMap f = L.flatMap g := by
  induction L with
  | nil => rfl
  | cons x xs ih =>
    rw [List.flatMap_cons, List.flatMap_cons, h x (by simp),
      ih (fun y hy => h y (by simp [hy]))]

/-- Core of the pack/unpack round trip for depths 1, 2 and 4: unpacking the
packed stream row by row (rows of `(width + k - 1) / k` bytes, `k = 8/d`
indices per byte) recovers the index array. -/
theorem unpack_pack_aux (d k : Nat) (pb : List Nat → Nat) (hk : 0 < k)
    (hfield : ∀ c : List Nat, c ≠ [] → c.length ≤ k → (∀ v ∈ c, v < 2 ^ d) →
      unpackFields d (pb c) = c ++ List.replicate (k - c.length) 0)
    (width : Nat) (hw : 0 < width) (indexes : List Nat)
    (hdvd : width ∣ indexes.length) (hv : ∀ v ∈ indexes, v < 2 ^ d) :
    (chunksOf ((width + k - 1) / k)
        ((chunksExact width indexes).flatMap fun line =>
          (chunksOf k line).map pb)).flatMap
      (fun row => (row.flatMap (unpackFields d)).take width) = indexes := by
  have hrb : 0 < (width + k - 1) / k :=
    (Nat.le_div_iff_mul_le hk).mpr (by omega)
  generalize hn : indexes.length = n
  induction n using Nat.strong_induction_on generalizing indexes with
  | _ n ih =>
    by_cases h0 : indexes.length = 0
    · rw [List.length_eq_zero.mp h0, chunksExact_eq_nil _ _ (by simp; omega)]
      rw [List.flatMap_nil, chunksOf_nil]
      rfl
    · have hwle : width ≤ indexes.length := Nat.le_of_dvd (by omega) hdvd
      rw [chunksExact_eq_cons width indexes hw hwle, List.flatMap_cons]
      have hrowlen : ((chunksOf k (indexes.take width)).map pb).length
          = (width + k - 1) / k := by
        rw [List.length_map, chunksOf_length k hk, List.length_take,
          Nat.min_eq_left hwle]
      rw [chunksOf_append_of_length _ _ _ hrb hrowlen, List.flatMap_cons]
      rw [flatMap_unpack_chunksOf d k pb hk hfield (indexes.take width)
        (fun v hv' => hv v (List.take_subset _ _ hv'))]
      rw [List.take_left' (by simp; omega)]
      rw [ih (indexes.drop width).length (by simp; omega) (indexes.drop width)
        (by
          rw [List.length_drop]
          exact Nat.dvd_sub' hdvd (Nat.dvd_refl width))
        (fun v hv' => hv v (List.drop_subset _ _ hv')) rfl]
      exact List.take_append_drop width indexes

/-- C3. Pack/unpack round-trip: for every bit depth in {1, 2, 4, 8}, every
positive width, and every index array whose length is a multiple of `width`
and whose values are all below `2^bitdepth`, unpacking the output of
`pack_bytes_clone` at the same width and depth (splitting each row's bytes
MSB-first into `8/bitdepth`-bit fields and discarding row padding) returns
exactly the original index array. -/
theorem pack_unpack_roundtrip (bitdepth width : Nat) (indexes : List Nat)
    (hd : bitdepth = 1 ∨ bitdepth = 2 ∨ bitdepth = 4 ∨ bitdepth = 8)
    (hw : 0 < width) (hdvd : width ∣ indexes.length)
    (hv : ∀ v ∈ indexes, v < 2 ^ bitdepth) :
    ∃ packed, pack_bytes_clone indexes width bitdepth = some packed ∧
      unpack_bytes packed width bitdepth = some indexes := by
  have hw0 : ¬ width = 0 := by omega
  rcases hd with rfl | rfl | rfl | rfl
  · refine ⟨_, by rw [pack_bytes_clone, if_neg hw0], ?_⟩
    rw [unpack_bytes, if_neg hw0, if_pos (by norm_num)]
    congr 1
    rw [show (width * 1 + 7) / 8 = (width + 8 - 1) / 8 by omega]
    exact unpack_pack_aux 1 8 packByte1 (by norm_num)
      unpackFields_packByte1 width hw indexes hdvd hv
  · refine ⟨_, by rw [pack_bytes_clone, if_neg hw0], ?_⟩
    rw [unpack_bytes, if_neg hw0, if_pos (by norm_num)]
    congr 1
    rw [show (width * 2 + 7) / 8 = (width + 4 - 1) / 4 by omega]
    exact unpack_pack_aux 2 4 packByte2 (by norm_num)
      unpackFields_packByte2 width hw indexes hdvd hv
  · refine ⟨_, by rw [pack_bytes_clone, if_neg hw0], ?_⟩
    rw [unpack_bytes, if_neg hw0, if_pos (by norm_num)]
    congr 1
    rw [show (width * 4 + 7) / 8 = (width + 2 - 1) / 2 by omega]
    exact unpack_pack_aux 4 2 packByte4 (by norm_num)
      unpackFields_packByte4 width hw indexes hdvd hv
  · refine ⟨indexes, rfl, ?_⟩
    rw [unpack_bytes, if_neg hw0, if_pos (by norm_num)]
    congr 1
    rw [show (width * 8 + 7) / 8 = width by omega]
    rw [flatMap_fun_congr (chunksOf width indexes) _ (fun row => row)
      (fun row hr => by
        rw [flatMap_fun_congr row (unpackFields 8) (fun b => [b]) (fun b _ => rfl),
          List.flatMap_singleton',
          List.take_of_length_le (chunksOf_mem_length width indexes row hr)])]
    rw [show ((chunksOf width indexes).flatMap fun row => row)
        = (chunksOf width indexes).flatMap id from rfl]
    rw [List.flatMap_id]
    exact chunksOf_flatten width hw indexes

/-! ### Packing masks out-of-range values (C10) -/

theorem and_mask_mod (v d : Nat) :
    v % 2 ^ d &&& (2 ^ d - 1) = v &&& (2 ^ d - 1) := by
  rw [Nat.and_pow_two_sub_one_eq_mod, Nat.and_pow_two_sub_one_eq_mod,
    Nat.mod_mod_of_dvd v (Nat.dvd_refl (2 ^ d))]

theorem and1_mod (v : Nat) : v % 2 &&& 1 = v &&& 1 := by
  simp

theorem and3_mod (v : Nat) : v % 4 &&& 3 = v &&& 3 := by
  have h := and_mask_mod v 2
  norm_num at h
  exact h

theorem and15_mod (v : Nat) : v % 16 &&& 15 = v &&& 15 := by
  have h := and_mask_mod v 4
  norm_num at h
  exact h

theorem packField_map_mod1 (p : List Nat) (i shift : Nat) :
    packField (p.map (· % 2)) i 1 shift = packField p i 1 shift := by
  unfold packField
  rw [List.getElem?_map]
  cases p[i]? with
  | none => rfl
  | some v => exact congrArg (· <<< shift) (and1_mod v)

theorem packField_map_mod2 (p : List Nat) (i shift : Nat) :
    packField (p.map (· % 4)) i 3 shift = packField p i 3 shift := by
  unfold packField
  rw [List.getElem?_map]
  cases p[i]? with
  | none => rfl
  | some v => exact congrArg (· <<< shift) (and3_mod v)

theorem packField_map_mod4 (p : List Nat) (i shift : Nat) :
    packField (p.map (· % 16)) i 15 shift = packField p i 15 shift := by
  unfold packField
  rw [List.getElem?_map]
  cases p[i]? with
  | none => rfl
  | some v => exact congrArg (· <<< shift) (and15_mod v)

theorem packByte1_map_mod (c : List Nat) :
    packByte1 (c.map (· % 2)) = packByte1 c := by
  unfold packByte1
  simp only [packField_map_mod1]

theorem packByte2_map_mod (c : List Nat) :
    packByte2 (c.map (· % 4)) = packByte2 c := by
  unfold packByte2
  simp only [packField_map_mod2]

theorem packByte4_map_mod (c : List Nat) :
    packByte4 (c.map (· % 16)) = packByte4 c := by
  unfold packByte4
  simp only [packField_map_mod4]

/-- C10. Packing truncates out-of-range indices instead of failing: for
every bit depth in {1, 2, 4}, every width, and every index array,
`pack_bytes_clone` gives the same result as on the array with every element
reduced modulo `2^bitdepth` — values at or above `2^bitdepth` are silently
masked to their low bits and never cause an error or panic. -/
theorem pack_truncates (bitdepth width : Nat) (indexes : List Nat)
    (hd : bitdepth = 1 ∨ bitdepth = 2 ∨ bitdepth = 4) :
    pack_bytes_clone indexes width bitdepth
      = pack_bytes_clone (indexes.map (· % 2 ^ bitdepth)) width bitdepth := by
  rcases hd with rfl | rfl | rfl
  · by_cases hw : width = 0
    · simp [pack_bytes_clone, hw]
    · have hfun : ((· % 2 ^ 1) : Nat → Nat) = (· % 2) := by
        funext v
        norm_num
      rw [hfun]
      simp only [pack_bytes_clone, if_neg hw]
      rw [chunksExact_map, List.flatMap_map]
      congr 1
      refine flatMap_fun_congr _ _ _ (fun line _ => ?_)
      rw [chunksOf_map, List.map_map]
      exact List.map_congr_left (fun c _ => (packByte1_map_mod c).symm)
  · by_cases hw : width = 0
    · simp [pack_bytes_clone, hw]
    · have hfun : ((· % 2 ^ 2) : Nat → Nat) = (· % 4) := by
        funext v
        norm_num
      rw [hfun]
      simp only [pack_bytes_clone, if_neg hw]
      rw [chunksExact_map, List.flatMap_map]
      congr 1
      refine flatMap_fun_congr _ _ _ (fun line _ => ?_)
      rw [chunksOf_map, List.map_map]
      exact List.map_congr_left (fun c _ => (packByte2_map_mod c).symm)
  · by_cases hw : width = 0
    · simp [pack_bytes_clone, hw]
    · have hfun : ((· % 2 ^ 4) : Nat → Nat) = (· % 16) := by
        funext v
        norm_num
      rw [hfun]
      simp only [pack_bytes_clone, if_neg hw]
      rw [chunksExact_map, List.flatMap_map]
      congr 1
      refine flatMap_fun_congr _ _ _ (fun line _ => ?_)
      rw [chunksOf_map, List.map_map]
      exact List.map_congr_left (fun c _ => (packByte4_map_mod c).symm)

/-- Witness for C10 at bit depth 4, width 2, indices `[17, 300]` (both out
of range for 4 bpp). -/
theorem pack_truncates_witness :
    pack_bytes_clone [17, 300] 2 4
      = pack_bytes_clone ([17, 300].map (· % 2 ^ 4)) 2 4 :=
  pack_truncates 4 2 [17, 300] (Or.inr (Or.inr rfl))

/-- Witness for C3 at the spec §8 example: width 4, indices `[0,1,2,3]`,
bit depth 2 (the packed row is the single byte `0b00011011 = 27`). -/
theorem pack_unpack_roundtrip_witness :
    (0 < 4 ∧ 4 ∣ ([0, 1, 2, 3] : List Nat).length ∧
      ∀ v ∈ ([0, 1, 2, 3] : List Nat), v < 2 ^ 2) ∧
    ∃ packed, pack_bytes_clone [0, 1, 2, 3] 4 2 = some packed ∧
      unpack_bytes packed 4 2 = some [0, 1, 2, 3] :=
  ⟨⟨by decide, by decide, by decide⟩,
    pack_unpack_roundtrip 2 4 [0, 1, 2, 3] (Or.inr (Or.inl rfl))
      (by decide) (by decide) (by decide)⟩

/-! ### C6: cancellation before the first pixel chunk -/

/-- The palette loop never emits a pixel-chunk frame. -/
theorem palLoop_no_pixCmd (flag : Nat → Bool) (chunks : List (List QColor))
    (polls : Nat) (clk : Bool) :
    pixCmdCount (palLoop flag chunks polls clk).1 = 0 := by
  induction chunks generalizing polls clk with
  | nil => rfl
  | cons c rest ih =>
    rw [palLoop]
    by_cases hf : flag polls
    · rw [if_pos hf]
      rfl
    · rw [if_neg hf]
      have ihx := ih (polls + 1) (!clk)
      unfold pixCmdCount at ihx ⊢
      simp [List.countP_cons, ihx]

/-- When the palette loop completes without observing cancellation it has
performed one poll per chunk. -/
theorem palLoop_polls (flag : Nat → Bool) (chunks : List (List QColor))
    (polls : Nat) (clk : Bool)
    (hnc : (palLoop flag chunks polls clk).2.2.2 = false) :
    (palLoop flag chunks polls clk).2.1 = polls + chunks.length := by
  induction chunks generalizing polls clk with
  | nil => simp [palLoop]
  | cons c rest ih =>
    rw [palLoop] at hnc ⊢
    by_cases hf : flag polls
    · rw [if_pos hf] at hnc
      simp at hnc
    · rw [if_neg hf] at hnc ⊢
      simp only at hnc ⊢
      rw [ih (polls + 1) (!clk) hnc]
      simp
      omega

/-- A pixel loop whose first poll reads the cancel flag as set sends
nothing. -/
theorem pixLoop_cancelled (flag : Nat → Bool) (chunks : List (List Nat))
    (polls : Nat) (clk : Bool) (hf : flag polls = true) :
    (pixLoop flag chunks polls clk).1 = [] := by
  cases chunks with
  | nil => rfl
  | cons c rest => rw [pixLoop, if_pos hf]

/-- C6. Cancellation before streaming: if the cancel flag is already set
at the poll that precedes the first pixel chunk, then zero pixel-chunk
register-write frames are sent, the window-deletion request is still
issued to the UI message channel, and the transmission body returns
without error.  (The flag value is given per poll; sends are modelled as
always succeeding.) -/
theorem cancel_before_first_pixel (r : SetupResult) (rle_compression : Bool)
    (palette : List QColor) (flag : Nat → Bool)
    (hset : flag (firstPixelPoll r palette) = true) :
    pixCmdCount (send_osc_thread r rle_compression palette flag).1 = 0 ∧
    BodyEvent.deleteWindowMsg ∈ (send_osc_thread r rle_compression palette flag).1 ∧
    (send_osc_thread r rle_compression palette flag).2 = Except.ok () := by
  cases hc : r.color with
  | indexed =>
    rw [firstPixelPoll, hc] at hset
    simp only [send_osc_thread, hc]
    by_cases hcc : (palLoop flag (chunksOf COLORS_AT_A_TIME palette) 0 true).2.2.2
    · rw [if_pos hcc]
      refine ⟨?_, by simp, by trivial⟩
      unfold pixCmdCount
      simp [List.countP_append, List.countP_cons, preludeEvents]
      have h1 := palLoop_no_pixCmd flag (chunksOf COLORS_AT_A_TIME palette) 0 true
      unfold pixCmdCount at h1
      simpa using h1
    · rw [if_neg hcc]
      have hp := palLoop_polls flag (chunksOf COLORS_AT_A_TIME palette) 0 true
        (Bool.eq_false_iff.mpr hcc)
      have hx : (pixLoop flag (chunksOf BYTES_PER_SEND r.stream)
          (palLoop flag (chunksOf COLORS_AT_A_TIME palette) 0 true).2.1
          (!(palLoop flag (chunksOf COLORS_AT_A_TIME palette) 0 true).2.2.1)).1 = [] := by
        apply pixLoop_cancelled
        rw [hp]
        simpa using hset
      rw [hx]
      refine ⟨?_, by simp, by trivial⟩
      unfold pixCmdCount
      simp [List.countP_append, List.countP_cons, preludeEvents]
      have h1 := palLoop_no_pixCmd flag (chunksOf COLORS_AT_A_TIME palette) 0 true
      unfold pixCmdCount at h1
      simpa using h1
  | grayscale =>
    rw [firstPixelPoll, hc] at hset
    simp only [send_osc_thread, hc]
    have hx : (pixLoop flag (chunksOf BYTES_PER_SEND r.stream) 0 true).1 = [] :=
      pixLoop_cancelled flag _ 0 true hset
    rw [hx]
    refine ⟨?_, by simp, by trivial⟩
    unfold pixCmdCount
    simp [List.countP_append, List.countP_cons, preludeEvents]

/-- Witness for C6: 2-color indexed palette (one palette chunk), a
3-byte stream, cancel flag set from the start. -/
theorem cancel_before_first_pixel_witness :
    pixCmdCount (send_osc_thread ⟨4, Color.indexed, [1, 2, 3]⟩ false
      [⟨0, 0, 0, 0⟩, ⟨1, 1, 1, 1⟩] (fun _ => true)).1 = 0 ∧
    BodyEvent.deleteWindowMsg ∈ (send_osc_thread ⟨4, Color.indexed, [1, 2, 3]⟩ false
      [⟨0, 0, 0, 0⟩, ⟨1, 1, 1, 1⟩] (fun _ => true)).1 ∧
    (send_osc_thread ⟨4, Color.indexed, [1, 2, 3]⟩ false
      [⟨0, 0, 0, 0⟩, ⟨1, 1, 1, 1⟩] (fun _ => true)).2 = Except.ok () :=
  cancel_before_first_pixel ⟨4, Color.indexed, [1, 2, 3]⟩ false
    [⟨0, 0, 0, 0⟩, ⟨1, 1, 1, 1⟩] (fun _ => true) rfl

/-! ### C7: setup errors and the socket bind -/

set_option maxRecDepth 8192 in
/-- C7 counterexample: the claim "for every call to `send_osc` where
`indexes` is empty, `width` is 0, `height` is 0,
`indexes.len() != width*height`, or (with `PixFmt::Auto`) the palette has
more than 256 colors, the function returns an error synchronously and
performs no network I/O (no socket bind and no send) before doing so" is
false: for the palette-too-large case the `UdpSocket::bind` at
`send_osc.rs` line 338 runs before the palette check at lines 345-360. -/
theorem setup_errors_before_io_cex :
    ¬ (∀ (indexes : List Nat) (palette : List QColor) (width height : Nat)
        (options : SendOSCOpts),
        (indexes.length = 0 ∨ width = 0 ∨ height = 0 ∨
          indexes.length ≠ width * height ∨
          ((∃ col, options.pixfmt = .auto col) ∧ 256 < palette.length)) →
        (∃ e, (send_osc_setup indexes palette width height options).2 = .error e) ∧
        (send_osc_setup indexes palette width height options).1 = []) := by
  intro h
  have h2 := (h [0] (List.replicate 257 ⟨0, 0, 0, 0⟩) 1 1
    ⟨.auto .indexed, false, false⟩
    (Or.inr (Or.inr (Or.inr (Or.inr ⟨⟨.indexed, rfl⟩,
      by rw [List.length_replicate]; omega⟩))))).2
  exact absurd h2 (by decide)

/-- C7 amended: the four size errors (`indexes` empty, zero width, zero
height, length mismatch) are returned synchronously before any network
I/O — no socket bind, no send; the palette-too-large error (with
`PixFmt::Auto`) is also returned synchronously and no datagram is ever
sent for it, but it is detected only after the socket has been bound, so
its event trace is exactly the bind. -/
theorem setup_errors_amended (indexes : List Nat) (palette : List QColor)
    (width height : Nat) (options : SendOSCOpts) :
    ((indexes.length = 0 ∨ width = 0 ∨ height = 0) →
      (∃ e, (send_osc_setup indexes palette width height options).2 = .error e) ∧
      (send_osc_setup indexes palette width height options).1 = []) ∧
    (indexes.length ≠ 0 → width ≠ 0 → height ≠ 0 →
      indexes.length ≠ width * height →
      (∃ e, (send_osc_setup indexes palette width height options).2 = .error e) ∧
      (send_osc_setup indexes palette width height options).1 = []) ∧
    (∀ col, options.pixfmt = .auto col → 256 < palette.length →
      indexes.length ≠ 0 → width ≠ 0 → height ≠ 0 →
      indexes.length = width * height →
      (send_osc_setup indexes palette width height options).2
        = .error "Too large palette" ∧
      (send_osc_setup indexes palette width height options).1
        = [SetupEvent.bind]) := by
  refine ⟨?_, ?_, ?_⟩
  · intro hz
    rw [send_osc_setup, if_pos hz]
    exact ⟨⟨_, rfl⟩, rfl⟩
  · intro h1 h2 h3 hne
    rw [send_osc_setup, if_neg (by tauto), if_pos hne]
    exact ⟨⟨_, rfl⟩, rfl⟩
  · intro col hpix hpal h1 h2 h3 heq
    rw [send_osc_setup, if_neg (by tauto), if_neg (by omega)]
    simp only [hpix]
    rw [if_neg (by omega), if_neg (by omega), if_neg (by omega), if_neg (by omega)]
    exact ⟨rfl, rfl⟩

set_option maxRecDepth 8192 in
/-- Witness for the amended C7: the three error classes at concrete
inputs. -/
theorem setup_errors_amended_witness :
    ((∃ e, (send_osc_setup [] [] 0 0 ⟨.auto .indexed, false, false⟩).2 = .error e) ∧
      (send_osc_setup [] [] 0 0 ⟨.auto .indexed, false, false⟩).1 = []) ∧
    ((∃ e, (send_osc_setup [0, 1, 2] [] 2 2 ⟨.auto .indexed, false, false⟩).2
        = .error e) ∧
      (send_osc_setup [0, 1, 2] [] 2 2 ⟨.auto .indexed, false, false⟩).1 = []) ∧
    ((send_osc_setup [0] (List.replicate 257 ⟨0, 0, 0, 0⟩) 1 1
        ⟨.auto .indexed, false, false⟩).2 = .error "Too large palette" ∧
      (send_osc_setup [0] (List.replicate 257 ⟨0, 0, 0, 0⟩) 1 1
        ⟨.auto .indexed, false, false⟩).1 = [SetupEvent.bind]) :=
  ⟨(setup_errors_amended [] [] 0 0 _).1 (by simp),
   (setup_errors_amended [0, 1, 2] [] 2 2 _).2.1 (by simp) (by simp) (by simp)
     (by simp),
   (setup_errors_amended [0] (List.replicate 257 ⟨0, 0, 0, 0⟩) 1 1
       ⟨.auto .indexed, false, false⟩).2.2 .indexed rfl
     (by rw [List.length_replicate]; omega) (by simp) (by simp) (by simp)
     (by simp)⟩

/-! ### RLE: item stream basics -/

theorem flatBytes_nil : flatBytes [] = [] := rfl

theorem flatSem_nil : flatSem [] = [] := rfl

theorem flatBytes_append (a b : List RItem) :
    flatBytes (a ++ b) = flatBytes a ++ flatBytes b := by
  simp [flatBytes]

theorem flatSem_append (a b : List RItem) :
    flatSem (a ++ b) = flatSem a ++ flatSem b := by
  simp [flatSem]

theorem flatBytes_cons (it : RItem) (r : List RItem) :
    flatBytes (it :: r) = it.bytes ++ flatBytes r := by
  simp [flatBytes]

theorem flatSem_cons (it : RItem) (r : List RItem) :
    flatSem (it :: r) = it.sem ++ flatSem r := by
  simp [flatSem]

theorem RItem.bytes_head (it : RItem) :
    it.bytes = it.firstByte :: it.bytes.tail := by
  cases it <;> rfl

theorem flatBytes_cons_head (it : RItem) (r : List RItem) :
    (flatBytes (it :: r)).head? = some it.firstByte := by
  rw [flatBytes_cons, RItem.bytes_head]
  rfl

theorem lastForbidden_nil : lastForbidden [] = none := rfl

theorem lastForbidden_append_lit (items : List RItem) (v : Nat) :
    lastForbidden (items ++ [.lit v]) =
      if BYTES_PER_SEND - 2 ≤ (flatBytes items).length % BYTES_PER_SEND
      then none
      else some v := by
  unfold lastForbidden
  rw [List.getLast?_concat]
  have hlen : (flatBytes (items ++ [.lit v])).length - 1 = (flatBytes items).length := by
    rw [flatBytes_append]
    simp [flatBytes, RItem.bytes]
  rw [hlen]

theorem lastForbidden_append_run (items : List RItem) (v c : Nat) :
    lastForbidden (items ++ [.run v c]) = none := by
  unfold lastForbidden
  rw [List.getLast?_concat]

/-! ### RLE: bridging the byte-level and itemized encoders -/

theorem toByte_result (t : ItState) : (toByte t).result = flatBytes t.items := rfl

theorem toByte_count (t : ItState) : (toByte t).count = t.count := rfl

theorem toByte_cv (t : ItState) :
    (toByte t).current_value = t.current_value := rfl

theorem maybe_push_toByte (t : ItState) (value : Nat) :
    maybe_push (toByte t) value = (itMaybePush t value).map toByte := by
  unfold maybe_push itMaybePush
  simp only [toByte_result, toByte_count, toByte_cv]
  cases hcv : t.current_value with
  | none => simp [toByte]
  | some curval =>
    by_cases h1 : 1 < t.count
    · simp [h1, toByte, flatBytes_append, flatBytes, RItem.bytes]
    · by_cases h2 : t.count = 1
      · simp [h1, h2, toByte, flatBytes_append, flatBytes, RItem.bytes]
      · simp [h1, h2]

theorem rleStep_toByte (t : ItState) (value : Nat) :
    rleStep (toByte t) value = (itStep t value).map toByte := by
  unfold rleStep itStep
  simp only [toByte_result, toByte_count, toByte_cv]
  by_cases hb : BYTES_PER_SEND - 2 ≤ (flatBytes t.items).length % BYTES_PER_SEND
  · rw [if_pos hb, if_pos hb]
    by_cases h1 : t.count = 1
    · rw [if_pos h1, if_pos h1]
      cases hcv : t.current_value with
      | none => rfl
      | some curval => simp [toByte, flatBytes, RItem.bytes]
    · rw [if_neg h1, if_neg h1]
      rfl
  · rw [if_neg hb, if_neg hb]
    cases hcv : t.current_value with
    | none => simp [hcv, toByte]
    | some curval =>
      simp only [hcv]
      by_cases hv : value = curval
      · rw [if_pos hv, if_pos hv]
        by_cases h255 : t.count = 255
        · rw [if_pos h255, if_pos h255]
          simp [toByte, flatBytes, RItem.bytes, hcv]
        · rw [if_neg h255, if_neg h255]
          simp [toByte, hcv]
      · rw [if_neg hv, if_neg hv]
        exact maybe_push_toByte t value

theorem rleRun_toByte (input : List Nat) :
    ∀ t : ItState, rleRun (toByte t) input = (itRun t input).map toByte := by
  induction input with
  | nil => intro t; rfl
  | cons v rest ih =>
    intro t
    rw [rleRun, itRun, rleStep_toByte]
    cases itStep t v with
    | none => rfl
    | some t2 => exact ih t2

theorem rle_encode_eq_itEncode (input : List Nat) :
    rle_encode input = (itEncode input).map flatBytes := by
  unfold rle_encode itEncode itEncodeFrom
  have h0 : (⟨[], 0, none⟩ : RleState) = toByte ⟨[], 0, none⟩ := rfl
  rw [h0, rleRun_toByte]
  cases itRun ⟨[], 0, none⟩ input with
  | none => rfl
  | some s =>
    rw [Option.map_some']
    simp only []
    rw [maybe_push_toByte]
    cases itMaybePush s 0 with
    | none => rfl
    | some s3 => rfl

/-! ### RLE: the decoder on well-formed item streams -/

/-- A byte at one of the two trailing window positions, or one whose
successor differs, decodes as a literal. -/
theorem rle_decode_cons_lit (pos : Nat) (a : Nat) (bs : List Nat)
    (h : BYTES_PER_SEND - 2 ≤ pos % BYTES_PER_SEND ∨ bs.head? ≠ some a) :
    rle_decode pos (a :: bs) = a :: rle_decode (pos + 1) bs := by
  match bs with
  | [] => rfl
  | [b] => rfl
  | b :: c :: r =>
    by_cases hb : BYTES_PER_SEND - 2 ≤ pos % BYTES_PER_SEND
    · simp [rle_decode, hb]
    · have hne : ¬ a = b := by
        rcases h with h | h
        · exact absurd h hb
        · intro hab
          exact h (by rw [List.head?_cons, hab])
      simp [rle_decode, hb, hne]

/-- An equal pair with a count byte, at an unprotected position, decodes
as a run. -/
theorem rle_decode_run (pos : Nat)
    (hnb : pos % BYTES_PER_SEND < BYTES_PER_SEND - 2) (v c : Nat)
    (bs : List Nat) :
    rle_decode pos (v :: v :: c :: bs)
      = List.replicate c v ++ rle_decode (pos + 3) bs := by
  simp [rle_decode, Nat.not_le.mpr hnb]

/-- Decoding the bytes of a well-formed item stream yields its meaning. -/
theorem rle_decode_goodAt (items : List RItem) : ∀ (pos : Nat) (forb : Option Nat),
    GoodAt pos forb items → rle_decode pos (flatBytes items) = flatSem items := by
  induction items with
  | nil => intro pos forb _; rfl
  | cons it rest ih =>
    intro pos forb hg
    cases hg with
    | lit p f v r hf hrest =>
      rw [flatBytes_cons]
      show rle_decode pos (v :: flatBytes rest) = flatSem (RItem.lit v :: rest)
      by_cases hb : BYTES_PER_SEND - 2 ≤ pos % BYTES_PER_SEND
      · rw [rle_decode_cons_lit pos v _ (Or.inl hb)]
        rw [if_pos hb] at hrest
        rw [ih (pos + 1) none hrest, flatSem_cons]
        rfl
      · rw [if_neg hb] at hrest
        have hhead : (flatBytes rest).head? ≠ some v := by
          cases rest with
          | nil => simp [flatBytes]
          | cons it2 r2 =>
            rw [flatBytes_cons_head]
            intro hcontra
            have hfb : it2.firstByte = v := by
              injection hcontra
            cases hrest with
            | lit _ _ w _ hf2 _ =>
              apply hf2
              rw [← hfb]
              rfl
            | run _ _ w c _ hf2 _ _ =>
              apply hf2
              rw [← hfb]
              rfl
        rw [rle_decode_cons_lit pos v _ (Or.inr hhead),
          ih (pos + 1) _ hrest, flatSem_cons]
        rfl
    | run p f v c r hf hpos hrest =>
      rw [flatBytes_cons]
      show rle_decode pos (v :: v :: c :: flatBytes rest)
        = flatSem (RItem.run v c :: rest)
      rw [rle_decode_run pos hpos v c, ih (pos + 3) none hrest, flatSem_cons]
      rfl

/-- A well-formed item stream passes the `runsStartOk` check: every run
starts strictly before the two trailing positions of its window. -/
theorem goodAt_runsStartOk (items : List RItem) :
    ∀ (pos : Nat) (forb : Option Nat),
    GoodAt pos forb items → runsStartOk pos items = true := by
  induction items with
  | nil => intro pos forb _; rfl
  | cons it rest ih =>
    intro pos forb hg
    cases hg with
    | lit p f v r hf hrest =>
      rw [runsStartOk]
      exact ih (pos + 1) _ hrest
    | run p f v c r hf hpos hrest =>
      rw [runsStartOk]
      rw [ih (pos + 3) none hrest]
      simp [hpos]

/-! ### RLE: the encoder's item stream is well-formed -/

theorem itEncodeFrom_cons (s : ItState) (v : Nat) (rest : List Nat) :
    itEncodeFrom s (v :: rest) =
      match itStep s v with
      | none => none
      | some s1 => itEncodeFrom s1 rest := by
  unfold itEncodeFrom
  simp only [itRun]
  cases itStep s v with
  | none => rfl
  | some s1 => rfl

theorem inv_forb_ne (s : ItState) (hs : InvIt s) (x : Nat)
    (hcv : s.current_value = some x) : lastForbidden s.items ≠ some x := by
  intro heq
  obtain ⟨_, _, _, hs4⟩ := hs
  obtain ⟨w, hw, hne⟩ := hs4 x heq
  rw [hcv] at hw
  injection hw with h
  exact hne h.symm

theorem flatBytes_len_lit (items : List RItem) (v : Nat) :
    (flatBytes (items ++ [RItem.lit v])).length = (flatBytes items).length + 1 := by
  rw [flatBytes_append]
  simp [flatBytes, RItem.bytes]

theorem flatBytes_len_run (items : List RItem) (v c : Nat) :
    (flatBytes (items ++ [RItem.run v c])).length
      = (flatBytes items).length + 3 := by
  rw [flatBytes_append]
  simp [flatBytes, RItem.bytes]

/-- The invariant holds of any state that has just started a fresh run,
provided the junction condition names a different byte. -/
theorem invIt_fresh (items : List RItem) (v : Nat)
    (hforb : ∀ u, lastForbidden items = some u → v ≠ u) :
    InvIt ⟨items, 1, some v⟩ := by
  refine ⟨?_, ?_, ?_, ?_⟩
  · intro hn
    exact absurd hn (by simp)
  · intro w hw
    exact ⟨by norm_num, by norm_num⟩
  · intro h2
    norm_num at h2
  · intro u hu
    exact ⟨v, rfl, hforb u hu⟩

/-- The central induction: from any state satisfying the invariant, the
itemized encoder finishes without panicking, only appends items, the
appended items are well-formed at the current position and junction, and
their meaning together with the open run is exactly the remaining
input. -/
theorem itEncodeFrom_good (input : List Nat) : ∀ (s : ItState), InvIt s →
    ∃ tail, itEncodeFrom s input = some (s.items ++ tail) ∧
      GoodAt (flatBytes s.items).length (lastForbidden s.items) tail ∧
      flatSem (s.items ++ tail) = semOf s ++ input := by
  induction input with
  | nil =>
    intro s hs
    obtain ⟨hs1, hs2, hs3, hs4⟩ := hs
    cases hcv : s.current_value with
    | none =>
      obtain ⟨hc0, hit⟩ := hs1 hcv
      refine ⟨[], ?_, GoodAt.nil _ _, ?_⟩
      · show itEncodeFrom s [] = some (s.items ++ [])
        unfold itEncodeFrom itRun itMaybePush
        simp [hcv]
      · rw [List.append_nil]
        unfold semOf ItState.pending
        rw [hcv]
        simp
    | some x =>
      have h1 := (hs2 x hcv).1
      rcases Nat.lt_or_ge 1 s.count with h2 | h2
      · refine ⟨[.run x s.count], ?_, ?_, ?_⟩
        · unfold itEncodeFrom itRun itMaybePush
          simp [hcv, h2]
        · exact GoodAt.run _ _ x s.count []
            (inv_forb_ne s ⟨hs1, hs2, hs3, hs4⟩ x hcv)
            (hs3 (by omega)) (GoodAt.nil _ _)
        · rw [flatSem_append]
          unfold semOf ItState.pending
          rw [hcv]
          simp [flatSem, RItem.sem]
      · have hc1 : s.count = 1 := by omega
        refine ⟨[.lit x], ?_, ?_, ?_⟩
        · unfold itEncodeFrom itRun itMaybePush
          simp [hcv, hc1]
        · exact GoodAt.lit _ _ x []
            (inv_forb_ne s ⟨hs1, hs2, hs3, hs4⟩ x hcv) (GoodAt.nil _ _)
        · rw [flatSem_append]
          unfold semOf ItState.pending
          rw [hcv, hc1]
          simp [flatSem, RItem.sem]
  | cons v rest ih =>
    intro s hs
    obtain ⟨hs1, hs2, hs3, hs4⟩ := hs
    rw [itEncodeFrom_cons]
    by_cases hb : BYTES_PER_SEND - 2 ≤ (flatBytes s.items).length % BYTES_PER_SEND
    · -- frame-boundary branch: force a literal
      have hcvne : s.current_value ≠ none := by
        intro hn
        obtain ⟨hc0, hit⟩ := hs1 hn
        rw [hit] at hb
        norm_num [flatBytes, BYTES_PER_SEND] at hb
      obtain ⟨x, hcv⟩ := Option.ne_none_iff_exists'.mp hcvne
      have hcle : s.count = 1 := by
        have h1 := (hs2 x hcv).1
        by_contra hne1
        have h2 := hs3 (by omega)
        omega
      have hstep : itStep s v = some ⟨s.items ++ [.lit x], 1, some v⟩ := by
        unfold itStep
        rw [if_pos hb, if_pos hcle, hcv]
      rw [hstep]
      have hinv1 : InvIt (⟨s.items ++ [.lit x], 1, some v⟩ : ItState) := by
        refine invIt_fresh _ v (fun u hu => ?_)
        rw [lastForbidden_append_lit, if_pos hb] at hu
        exact absurd hu (by simp)
      obtain ⟨tail1, henc1, hgood1, hsem1⟩ :=
        ih ⟨s.items ++ [.lit x], 1, some v⟩ hinv1
      refine ⟨.lit x :: tail1, ?_, ?_, ?_⟩
      · show itEncodeFrom _ rest = _
        rw [henc1]
        simp
      · refine GoodAt.lit _ _ x tail1
          (inv_forb_ne s ⟨hs1, hs2, hs3, hs4⟩ x hcv) ?_
        rw [if_pos hb]
        rw [flatBytes_len_lit, lastForbidden_append_lit, if_pos hb] at hgood1
        exact hgood1
      · have e3 : s.items ++ (RItem.lit x :: tail1)
            = (s.items ++ [RItem.lit x]) ++ tail1 := by simp
        rw [e3, hsem1]
        unfold semOf ItState.pending
        simp only [hcv]
        rw [flatSem_append]
        simp [flatSem, RItem.sem, hcle, List.append_assoc]
    · -- not at the boundary
      cases hcv : s.current_value with
      | none =>
        obtain ⟨hc0, hit⟩ := hs1 hcv
        have hstep : itStep s v = some ⟨s.items, 1, some v⟩ := by
          unfold itStep
          rw [if_neg hb, hcv]
        rw [hstep]
        have hinv1 : InvIt (⟨s.items, 1, some v⟩ : ItState) := by
          refine invIt_fresh _ v (fun u hu => ?_)
          rw [hit, lastForbidden_nil] at hu
          exact absurd hu (by simp)
        obtain ⟨tail1, henc1, hgood1, hsem1⟩ := ih ⟨s.items, 1, some v⟩ hinv1
        refine ⟨tail1, henc1, hgood1, ?_⟩
        rw [hsem1]
        unfold semOf ItState.pending
        rw [hcv, hit]
        simp [flatSem]
      | some x =>
        by_cases hv : v = x
        · by_cases h255 : s.count = 255
          · -- count overflow: emit the full triple, keep running
            have hstep : itStep s v
                = some ⟨s.items ++ [.run x s.count], 1, some x⟩ := by
              unfold itStep
              rw [if_neg hb, hcv]
              simp [hv, h255, hcv]
            rw [hstep]
            have hinv1 : InvIt (⟨s.items ++ [.run x s.count], 1, some x⟩ : ItState) := by
              refine invIt_fresh _ x (fun u hu => ?_)
              rw [lastForbidden_append_run] at hu
              exact absurd hu (by simp)
            obtain ⟨tail1, henc1, hgood1, hsem1⟩ :=
              ih ⟨s.items ++ [.run x s.count], 1, some x⟩ hinv1
            refine ⟨.run x s.count :: tail1, ?_, ?_, ?_⟩
            · show itEncodeFrom _ rest = _
              rw [henc1]
              simp
            · refine GoodAt.run _ _ x s.count tail1
                (inv_forb_ne s ⟨hs1, hs2, hs3, hs4⟩ x hcv) (by omega) ?_
              rw [flatBytes_len_run, lastForbidden_append_run] at hgood1
              exact hgood1
            · have e3 : s.items ++ (RItem.run x s.count :: tail1)
                  = (s.items ++ [RItem.run x s.count]) ++ tail1 := by simp
              rw [e3, hsem1]
              unfold semOf ItState.pending
              simp only [hcv]
              rw [flatSem_append]
              simp [flatSem, RItem.sem, hv, List.append_assoc]
          · -- accumulate
            have hstep : itStep s v = some ⟨s.items, s.count + 1, some x⟩ := by
              unfold itStep
              rw [if_neg hb, hcv]
              simp [hv, h255, hcv]
            rw [hstep]
            have hinv1 : InvIt (⟨s.items, s.count + 1, some x⟩ : ItState) := by
              have hc := hs2 x hcv
              refine ⟨?_, ?_, ?_, ?_⟩
              · intro hn
                exact absurd hn (by simp)
              · intro w hw
                refine ⟨?_, ?_⟩
                · show 1 ≤ s.count + 1
                  omega
                · show s.count + 1 ≤ 255
                  omega
              · intro h2
                show (flatBytes s.items).length % BYTES_PER_SEND < BYTES_PER_SEND - 2
                exact Nat.lt_of_not_le hb
              · intro u hu
                obtain ⟨w, hw, hne⟩ := hs4 u hu
                rw [hcv] at hw
                injection hw with hxw
                exact ⟨x, rfl, by rw [hxw]; exact hne⟩
            obtain ⟨tail1, henc1, hgood1, hsem1⟩ :=
              ih ⟨s.items, s.count + 1, some x⟩ hinv1
            refine ⟨tail1, henc1, hgood1, ?_⟩
            rw [hsem1]
            unfold semOf ItState.pending
            rw [hcv]
            simp [hv, List.replicate_succ', List.append_assoc]
        · -- different byte: flush via maybe_push
          have h1 := (hs2 x hcv).1
          rcases Nat.lt_or_ge 1 s.count with h2 | h2
          · -- flush a run
            have hstep : itStep s v
                = some ⟨s.items ++ [.run x s.count], 1, some v⟩ := by
              unfold itStep itMaybePush
              rw [if_neg hb, hcv]
              simp [hv, h2]
            rw [hstep]
            have hinv1 : InvIt (⟨s.items ++ [.run x s.count], 1, some v⟩ : ItState) := by
              refine invIt_fresh _ v (fun u hu => ?_)
              rw [lastForbidden_append_run] at hu
              exact absurd hu (by simp)
            obtain ⟨tail1, henc1, hgood1, hsem1⟩ :=
              ih ⟨s.items ++ [.run x s.count], 1, some v⟩ hinv1
            refine ⟨.run x s.count :: tail1, ?_, ?_, ?_⟩
            · show itEncodeFrom _ rest = _
              rw [henc1]
              simp
            · refine GoodAt.run _ _ x s.count tail1
                (inv_forb_ne s ⟨hs1, hs2, hs3, hs4⟩ x hcv)
                (hs3 (by omega)) ?_
              rw [flatBytes_len_run, lastForbidden_append_run] at hgood1
              exact hgood1
            · have e3 : s.items ++ (RItem.run x s.count :: tail1)
                  = (s.items ++ [RItem.run x s.count]) ++ tail1 := by simp
              rw [e3, hsem1]
              unfold semOf ItState.pending
              simp only [hcv]
              rw [flatSem_append]
              simp [flatSem, RItem.sem, List.append_assoc]
          · -- flush a literal
            have hc1 : s.count = 1 := by omega
            have hstep : itStep s v
                = some ⟨s.items ++ [.lit x], 1, some v⟩ := by
              unfold itStep itMaybePush
              rw [if_neg hb, hcv]
              simp [hv, hc1]
            rw [hstep]
            have hinv1 : InvIt (⟨s.items ++ [.lit x], 1, some v⟩ : ItState) := by
              refine invIt_fresh _ v (fun u hu => ?_)
              rw [lastForbidden_append_lit, if_neg hb] at hu
              injection hu with hux
              rw [← hux]
              exact hv
            obtain ⟨tail1, henc1, hgood1, hsem1⟩ :=
              ih ⟨s.items ++ [.lit x], 1, some v⟩ hinv1
            refine ⟨.lit x :: tail1, ?_, ?_, ?_⟩
            · show itEncodeFrom _ rest = _
              rw [henc1]
              simp
            · refine GoodAt.lit _ _ x tail1
                (inv_forb_ne s ⟨hs1, hs2, hs3, hs4⟩ x hcv) ?_
              rw [if_neg hb]
              rw [flatBytes_len_lit, lastForbidden_append_lit, if_neg hb] at hgood1
              exact hgood1
            · have e3 : s.items ++ (RItem.lit x :: tail1)
                  = (s.items ++ [RItem.lit x]) ++ tail1 := by simp
              rw [e3, hsem1]
              unfold semOf ItState.pending
              simp only [hcv]
              rw [flatSem_append]
              simp [flatSem, RItem.sem, hc1, List.append_assoc]

/-- The item stream of `rle_encode` exists, is well-formed from position
0 with no junction constraint, and means exactly the input. -/
theorem itEncode_good (input : List Nat) :
    ∃ items, itEncode input = some items ∧ GoodAt 0 none items ∧
      flatSem items = input := by
  have hinv : InvIt ⟨[], 0, none⟩ := by
    refine ⟨fun _ => ⟨rfl, rfl⟩, ?_, ?_, ?_⟩
    · intro w hw
      exact absurd hw (by simp)
    · intro h2
      norm_num at h2
    · intro u hu
      rw [lastForbidden_nil] at hu
      exact absurd hu (by simp)
  obtain ⟨tail, henc, hgood, hsem⟩ := itEncodeFrom_good input ⟨[], 0, none⟩ hinv
  refine ⟨tail, ?_, ?_, ?_⟩
  · rw [itEncode]
    rw [henc]
    simp
  · exact hgood
  · simpa [semOf, ItState.pending, flatSem] using hsem

/-- C9. `rle_encode` never panics: on every input the `assert!(count ==
1)` holds whenever the frame-boundary branch is taken, `current_value` is
`Some` at every `expect`, and the `panic!` branch of `maybe_push` is
unreachable; the encoder is a total function of its input. -/
theorem rle_encode_never_panics (input : List Nat) :
    (rle_encode input).isSome := by
  obtain ⟨items, he, _, _⟩ := itEncode_good input
  rw [rle_encode_eq_itEncode, he]
  rfl

/-- C1. RLE round trip: for every byte stream — including streams whose
length is not a multiple of `FRAME_SIZE = 24` and streams with runs of
256 or more identical bytes — decoding the output of `rle_encode` with
the frame-windowed decoder described in the spec (a run is recognized
when two consecutive bytes are equal and a count byte follows, except at
the last two positions of each 24-byte window, which are always literal)
yields exactly the original byte stream. -/
theorem rle_roundtrip (bytes : List Nat) (_hbytes : ∀ b ∈ bytes, b < 256) :
    ∃ enc, rle_encode bytes = some enc ∧ rle_decode 0 enc = bytes := by
  obtain ⟨items, he, hgood, hsem⟩ := itEncode_good bytes
  refine ⟨flatBytes items, ?_, ?_⟩
  · rw [rle_encode_eq_itEncode, he]
    rfl
  · rw [rle_decode_goodAt items 0 none hgood, hsem]

/-- Witness for C1 at a concrete byte stream with a run and literals. -/
theorem rle_roundtrip_witness :
    (∀ b ∈ ([3, 3, 3, 7, 7, 2] : List Nat), b < 256) ∧
    ∃ enc, rle_encode [3, 3, 3, 7, 7, 2] = some enc ∧
      rle_decode 0 enc = [3, 3, 3, 7, 7, 2] :=
  ⟨by decide, rle_roundtrip [3, 3, 3, 7, 7, 2] (by decide)⟩

/-- C2 counterexample: the claim "`rle_encode` never emits a
`(value, value, count)` triple any of whose 3 bytes lands at output
position 22 or 23 modulo 24" is false.  On the 23-byte input
`[0, 1, …, 19, 20, 20, 21]` the encoder emits the triple `(20, 20, 2)`
starting at output position 20, so its count byte lands at position 22;
the byte-level output is `[0, …, 19, 20, 20, 2, 21]`. -/
theorem rle_triple_in_tail_cex :
    rle_encode [0, 1, 2, 3, 4, 5, 6, 7, 8, 9, 10, 11, 12, 13, 14, 15, 16,
        17, 18, 19, 20, 20, 21]
      = some [0, 1, 2, 3, 4, 5, 6, 7, 8, 9, 10, 11, 12, 13, 14, 15, 16,
        17, 18, 19, 20, 20, 2, 21] ∧
    itEncode [0, 1, 2, 3, 4, 5, 6, 7, 8, 9, 10, 11, 12, 13, 14, 15, 16,
        17, 18, 19, 20, 20, 21]
      = some [.lit 0, .lit 1, .lit 2, .lit 3, .lit 4, .lit 5, .lit 6,
        .lit 7, .lit 8, .lit 9, .lit 10, .lit 11, .lit 12, .lit 13,
        .lit 14, .lit 15, .lit 16, .lit 17, .lit 18, .lit 19,
        .run 20 2, .lit 21] ∧
    runsAvoidTail 0 [.lit 0, .lit 1, .lit 2, .lit 3, .lit 4, .lit 5,
        .lit 6, .lit 7, .lit 8, .lit 9, .lit 10, .lit 11, .lit 12,
        .lit 13, .lit 14, .lit 15, .lit 16, .lit 17, .lit 18, .lit 19,
        .run 20 2, .lit 21] = false ∧
    ¬ (∀ (input : List Nat) (items : List RItem),
        itEncode input = some items → runsAvoidTail 0 items = true) := by
  refine ⟨by decide, by decide, by decide, fun h => ?_⟩
  have h2 := h [0, 1, 2, 3, 4, 5, 6, 7, 8, 9, 10, 11, 12, 13, 14, 15, 16,
      17, 18, 19, 20, 20, 21]
    [.lit 0, .lit 1, .lit 2, .lit 3, .lit 4, .lit 5, .lit 6, .lit 7,
      .lit 8, .lit 9, .lit 10, .lit 11, .lit 12, .lit 13, .lit 14,
      .lit 15, .lit 16, .lit 17, .lit 18, .lit 19, .run 20 2, .lit 21]
    (by decide)
  exact absurd h2 (by decide)

/-- C2 amended: the encoder never *begins* a triple at output position 22
or 23 modulo 24 — whenever its write position is at one of the last two
positions of a 24-byte block it emits a literal, so no triple ever
straddles a block boundary; a triple beginning at position 20 or 21 may
however place its 2nd or 3rd byte at positions 22/23. -/
theorem rle_runs_never_straddle (input : List Nat) :
    ∃ items, itEncode input = some items ∧
      rle_encode input = some (flatBytes items) ∧
      runsStartOk 0 items = true := by
  obtain ⟨items, he, hgood, _⟩ := itEncode_good input
  refine ⟨items, he, ?_, goodAt_runsStartOk items 0 none hgood⟩
  rw [rle_encode_eq_itEncode, he]
  rfl

/-! ### C8: automatic bit-depth resolution -/

/-- `pack_bytes_clone` succeeds for the supported depths and a nonzero
width. -/
theorem pack_bytes_clone_total (indexes : List Nat) (width bitdepth : Nat)
    (hd : bitdepth = 1 ∨ bitdepth = 2 ∨ bitdepth = 4 ∨ bitdepth = 8)
    (hw : width ≠ 0) :
    ∃ p, pack_bytes_clone indexes width bitdepth = some p := by
  rcases hd with rfl | rfl | rfl | rfl <;> simp [pack_bytes_clone, hw]

/-- C8. Auto bit-depth resolution: with `PixFmt::Auto` and otherwise
valid inputs, the bit depth is resolved from the palette length as:
≤ 2 → 1 bpp, ≤ 4 → 2 bpp, ≤ 16 → 4 bpp, ≤ 256 → 8 bpp, and > 256 is a
setup error. -/
theorem auto_bitdepth_resolution (indexes : List Nat) (palette : List QColor)
    (width height : Nat) (linesync rlec : Bool) (col : Color)
    (hne : indexes.length ≠ 0) (hw : width ≠ 0) (hh : height ≠ 0)
    (hlen : indexes.length = width * height) :
    (palette.length ≤ 2 →
      ∃ r, (send_osc_setup indexes palette width height
        ⟨.auto col, linesync, rlec⟩).2 = .ok r ∧ r.bitdepth = 1) ∧
    (2 < palette.length → palette.length ≤ 4 →
      ∃ r, (send_osc_setup indexes palette width height
        ⟨.auto col, linesync, rlec⟩).2 = .ok r ∧ r.bitdepth = 2) ∧
    (4 < palette.length → palette.length ≤ 16 →
      ∃ r, (send_osc_setup indexes palette width height
        ⟨.auto col, linesync, rlec⟩).2 = .ok r ∧ r.bitdepth = 4) ∧
    (16 < palette.length → palette.length ≤ 256 →
      ∃ r, (send_osc_setup indexes palette width height
        ⟨.auto col, linesync, rlec⟩).2 = .ok r ∧ r.bitdepth = 8) ∧
    (256 < palette.length →
      (send_osc_setup indexes palette width height
        ⟨.auto col, linesync, rlec⟩).2 = .error "Too large palette") := by
  refine ⟨?_, ?_, ?_, ?_, ?_⟩
  · intro hp1
    rw [send_osc_setup, if_neg (by tauto), if_neg (not_not_intro hlen)]
    simp only [if_pos hp1]
    obtain ⟨p, hp⟩ := pack_bytes_clone_total indexes width 1 (by tauto) hw
    rw [hp]
    cases rlec with
    | false => exact ⟨_, rfl, rfl⟩
    | true =>
      obtain ⟨c, hc⟩ := Option.isSome_iff_exists.mp (rle_encode_never_panics p)
      simp only [hc]
      exact ⟨_, rfl, rfl⟩
  · intro hp1 hp2
    rw [send_osc_setup, if_neg (by tauto), if_neg (not_not_intro hlen)]
    simp only [if_neg (by omega : ¬ palette.length ≤ 2), if_pos hp2]
    obtain ⟨p, hp⟩ := pack_bytes_clone_total indexes width 2 (by tauto) hw
    rw [hp]
    cases rlec with
    | false => exact ⟨_, rfl, rfl⟩
    | true =>
      obtain ⟨c, hc⟩ := Option.isSome_iff_exists.mp (rle_encode_never_panics p)
      simp only [hc]
      exact ⟨_, rfl, rfl⟩
  · intro hp1 hp2
    rw [send_osc_setup, if_neg (by tauto), if_neg (not_not_intro hlen)]
    simp only [if_neg (by omega : ¬ palette.length ≤ 2),
      if_neg (by omega : ¬ palette.length ≤ 4), if_pos hp2]
    obtain ⟨p, hp⟩ := pack_bytes_clone_total indexes width 4 (by tauto) hw
    rw [hp]
    cases rlec with
    | false => exact ⟨_, rfl, rfl⟩
    | true =>
      obtain ⟨c, hc⟩ := Option.isSome_iff_exists.mp (rle_encode_never_panics p)
      simp only [hc]
      exact ⟨_, rfl, rfl⟩
  · intro hp1 hp2
    rw [send_osc_setup, if_neg (by tauto), if_neg (not_not_intro hlen)]
    simp only [if_neg (by omega : ¬ palette.length ≤ 2),
      if_neg (by omega : ¬ palette.length ≤ 4),
      if_neg (by omega : ¬ palette.length ≤ 16), if_pos hp2]
    obtain ⟨p, hp⟩ := pack_bytes_clone_total indexes width 8 (by tauto) hw
    rw [hp]
    cases rlec with
    | false => exact ⟨_, rfl, rfl⟩
    | true =>
      obtain ⟨c, hc⟩ := Option.isSome_iff_exists.mp (rle_encode_never_panics p)
      simp only [hc]
      exact ⟨_, rfl, rfl⟩
  · intro hp1
    rw [send_osc_setup, if_neg (by tauto), if_neg (not_not_intro hlen)]
    simp only [if_neg (by omega : ¬ palette.length ≤ 2),
      if_neg (by omega : ¬ palette.length ≤ 4),
      if_neg (by omega : ¬ palette.length ≤ 16),
      if_neg (by omega : ¬ palette.length ≤ 256)]

/-- Witness for C8 at the spec §8 example: a palette of length 5 with
`PixFmt::Auto` resolves to bit depth 4. -/
theorem auto_bitdepth_resolution_witness :
    ∃ r, (send_osc_setup [0, 1, 2, 3]
      [⟨1, 2, 3, 4⟩, ⟨5, 6, 7, 8⟩, ⟨1, 1, 1, 1⟩, ⟨2, 2, 2, 2⟩, ⟨3, 3, 3, 3⟩]
      2 2 ⟨.auto .indexed, false, false⟩).2 = .ok r ∧ r.bitdepth = 4 :=
  (auto_bitdepth_resolution [0, 1, 2, 3]
    [⟨1, 2, 3, 4⟩, ⟨5, 6, 7, 8⟩, ⟨1, 1, 1, 1⟩, ⟨2, 2, 2, 2⟩, ⟨3, 3, 3, 3⟩]
    2 2 false false .indexed (by decide) (by decide) (by decide)
    (by decide)).2.2.1 (by decide) (by decide)

end OSCPixelSender
